import Mathlib

/-
  Verification of the curation state machine of the spanish-vocab-builder
  repository (src/spanish_flashcard_builder/pipeline/curate/state.py).

  Shallow embedding notes:
  * Python ints are modelled as `Int`; Python list indexing (including its
    negative-index wrap-around and the IndexError case) is modelled by
    `pyIndex`.
  * The lookup provider (`look_up` from the curate mw_api module) is modelled
    as a pure function `Oracle : String → Option (List DictionaryEntry)`;
    the in-repo implementation (components/vocab_selector/mw_api.py) always
    returns `DictionaryTerm(search_word, entries)` with a non-None result
    exactly when matching entries exist, and all lookup exceptions are
    collapsed to `None` by the caller's try/except, so an `Option`-valued
    pure function is a faithful model of one run.
  * `sys.exit(1)` paths are modelled by `Except Fatal`.
  * The fields `countingQueries`, `writes` and `logs` of `EngineState` are
    ghost instrumentation recording externally observable effects: the
    words for which the lookup was consulted in order to record an entry
    count, the successive `_save_history` payloads, and the log messages.
    They are never read by the translated code.
-/

namespace VocabCurate

/-- One dictionary sense; its payload is opaque to the traversal logic. -/
structure DictionaryEntry where
  raw : Nat
deriving DecidableEq, Repr

/-- A headword together with its ordered senses (models curate/models.py's
DictionaryTerm as used by state.py). -/
structure DictionaryTerm where
  headword : String
  entries : List DictionaryEntry
deriving DecidableEq, Repr

/-- The lookup provider: for a word, the list of senses of its term, or
`none` when the lookup yields no usable term (or raises). -/
abbrev Oracle := String → Option (List DictionaryEntry)

/-- Number of senses the oracle yields for a word (0 when there is no term). -/
def oracleCount (oracle : Oracle) (w : String) : Int :=
  match oracle w with
  | some es => (es.length : Int)
  | none => 0

/-- The persisted record `_StateData`. -/
structure StateData where
  headword_index : Int := 0
  entry_index : Int := 0
  headword_entry_count : List (String × Int) := []
deriving DecidableEq, Repr

/-- Ghost log messages, one per logging call site of state.py that the
claims refer to. -/
inductive LogMsg where
  | errNoEntryCount (w : String)
  | infoReachedEnd
  | warnPrevNoEntries (w : String)
  | infoCannotUndo
  | warnSkipHeadword (w : String)
  | errIndexOutOfRange (i : Int)
deriving DecidableEq, Repr

/-- The full in-memory state of `State`, plus ghost observability fields. -/
structure EngineState where
  headwords : List String
  data : StateData
  cache : List (String × DictionaryTerm)
  countingQueries : List String
  writes : List StateData
  logs : List LogMsg
deriving DecidableEq, Repr

/-- Python dict lookup (`d.get(k)`), on the insertion-ordered association
list model of a dict. -/
def dictGet {α : Type} : List (String × α) → String → Option α
  | [], _ => none
  | (k, v) :: rest, w => if k = w then some v else dictGet rest w

/-- Python `d.get(k, default)`. -/
def dictGetD {α : Type} (m : List (String × α)) (w : String) (d : α) : α :=
  (dictGet m w).getD d

/-- Python dict assignment `d[k] = v`: update in place, else append. -/
def dictSet {α : Type} : List (String × α) → String → α → List (String × α)
  | [], w, v => [(w, v)]
  | (k, v') :: rest, w, v =>
    if k = w then (k, v) :: rest else (k, v') :: dictSet rest w v

/-- Python list indexing `l[i]` as an `Option` (negative indices wrap from
the end; out-of-range is `none`, i.e. IndexError). -/
def pyIndex {α : Type} (l : List α) (i : Int) : Option α :=
  if 0 ≤ i then l[i.toNat]?
  else if 0 ≤ (l.length : Int) + i then l[((l.length : Int) + i).toNat]?
  else none

/-- The word at a (Nat) position of the headword list. -/
def wordAt (s : EngineState) (j : Nat) : String :=
  s.headwords.getD j ""

/-- The word at the current headword index. -/
def curWord (s : EngineState) : String :=
  wordAt s s.data.headword_index.toNat

/-- Ghost: record one `_save_history()` call. -/
def saveHistory (s : EngineState) : EngineState :=
  { s with writes := s.writes ++ [s.data] }

/-- Ghost: record one log message. -/
def addLog (s : EngineState) (m : LogMsg) : EngineState :=
  { s with logs := s.logs ++ [m] }

/-- `State._get_term_for_headword`: consult the lookup cache, else call
`look_up` (the oracle); a non-None result is cached.  The term built by
the repo's `look_up` is always `DictionaryTerm(search_word, entries)`. -/
def getTermForHeadword (oracle : Oracle) (s : EngineState) (word : String) :
    Option DictionaryTerm × EngineState :=
  match dictGet s.cache word with
  | some t => (some t, s)
  | none =>
    match oracle word with
    | none => (none, s)
    | some es =>
      let t : DictionaryTerm := ⟨word, es⟩
      (some t, { s with cache := dictSet s.cache word t })

/-- `State._set_headword_index`. -/
def setHeadwordIndex (oracle : Oracle) (s : EngineState) (index : Int) :
    Option String × EngineState :=
  if hix : 0 ≤ index ∧ index < (s.headwords.length : Int) then
    let s1 : EngineState :=
      { s with data := { s.data with headword_index := index, entry_index := 0 } }
    let word := s.headwords.get ⟨index.toNat, by
      rcases hix with ⟨h0, h1⟩
      omega⟩
    if (dictGet s1.data.headword_entry_count word).isSome then
      (some word, s1)
    else
      let r := getTermForHeadword oracle s1 word
      let count : Int :=
        match r.1 with
        | some t => (t.entries.length : Int)
        | none => 0
      (some word,
        { r.2 with
          data := { r.2.data with
            headword_entry_count := dictSet r.2.data.headword_entry_count word count }
          countingQueries := r.2.countingQueries ++ [word] })
  else
    (none, addLog s (LogMsg.errIndexOutOfRange index))

/-- `State._advance_headword`, specialised by a fuel argument: the Python
loop moves the index by `step` each iteration and therefore runs at most
`len + 1` iterations for `step = ±1`, which is the fuel supplied at every
call site; the fuel-0 fallback is unreachable there. -/
def advanceHeadword (oracle : Oracle) (step : Int) :
    Nat → EngineState → Bool × EngineState
  | 0, s => (false, s)
  | fuel + 1, s =>
    let new_index := s.data.headword_index + step
    if 0 ≤ new_index ∧ new_index < (s.headwords.length : Int) then
      match setHeadwordIndex oracle s new_index with
      | (none, s') => (false, s')
      | (some word, s') =>
        if 0 < dictGetD s'.data.headword_entry_count word 0 then (true, s')
        else advanceHeadword oracle step fuel s'
    else (false, s)

/-- `State._go_to_next_headword`. -/
def goToNextHeadword (oracle : Oracle) (s : EngineState) : Bool × EngineState :=
  advanceHeadword oracle 1 (s.headwords.length + 1) s

/-- `State._go_to_previous_headword`. -/
def goToPreviousHeadword (oracle : Oracle) (s : EngineState) : Bool × EngineState :=
  advanceHeadword oracle (-1) (s.headwords.length + 1) s

/-- The `sys.exit(1)` outcome. -/
inductive Fatal where
  | exitOne
deriving DecidableEq, Repr

/-- `State.current_term`, with fuel for its skip-forward recursion (each
retry strictly advances the headword index, so `len + 1` suffices). -/
def currentTermAux (oracle : Oracle) :
    Nat → EngineState → Except Fatal (DictionaryTerm × EngineState)
  | 0, _ => .error .exitOne
  | fuel + 1, s =>
    match pyIndex s.headwords s.data.headword_index with
    | none => .error .exitOne
    | some word =>
      match getTermForHeadword oracle s word with
      | (none, s1) =>
        match goToNextHeadword oracle (addLog s1 (LogMsg.warnSkipHeadword word)) with
        | (true, s3) => currentTermAux oracle fuel s3
        | (false, _) => .error .exitOne
      | (some term, s1) => .ok (term, s1)

/-- `State.current_term` at its canonical fuel. -/
def currentTermOp (oracle : Oracle) (s : EngineState) :
    Except Fatal (DictionaryTerm × EngineState) :=
  currentTermAux oracle (s.headwords.length + 1) s

/-- `State.current_entry`. -/
def currentEntryOp (oracle : Oracle) (s : EngineState) :
    Except Fatal (DictionaryEntry × EngineState) :=
  match currentTermOp oracle s with
  | .error e => .error e
  | .ok (term, s1) =>
    if term.entries.isEmpty then .error .exitOne
    else
      match pyIndex term.entries s1.data.entry_index with
      | some en => .ok (en, s1)
      | none => .error .exitOne

/-- The tail of `commit_entry` (its lines deciding whether to advance to
the next headword, given the entry count it determined): if the entry
index reached or passed the count, advance; a failed advance is the
terminal "reached the end" condition. -/
def commitAdvance (oracle : Oracle) (entry_count : Int) (s2 : EngineState) :
    EngineState :=
  if entry_count ≤ s2.data.entry_index then
    match goToNextHeadword oracle s2 with
    | (true, s') => s'
    | (false, s') => addLog s' LogMsg.infoReachedEnd
  else s2

/-- `State.commit_entry`. -/
def commitEntry (oracle : Oracle) (s : EngineState) : Except Fatal EngineState :=
  match currentTermOp oracle
      { s with data := { s.data with entry_index := s.data.entry_index + 1 } } with
  | .error e => .error e
  | .ok (term, s1) =>
    match dictGet s1.data.headword_entry_count term.headword with
    | some c => .ok (saveHistory (commitAdvance oracle c s1))
    | none =>
      .ok (saveHistory (commitAdvance oracle 0
        (addLog
          { s1 with data := { s1.data with
              headword_entry_count :=
                dictSet s1.data.headword_entry_count term.headword 0 } }
          (LogMsg.errNoEntryCount term.headword))))

/-- `State.undo`. -/
def undoOp (oracle : Oracle) (s : EngineState) : Except Fatal EngineState :=
  if 0 < s.data.entry_index then
    .ok (saveHistory
      { s with data := { s.data with entry_index := s.data.entry_index - 1 } })
  else if 0 < s.data.headword_index then
    match goToPreviousHeadword oracle s with
    | (true, s1) =>
      match currentTermOp oracle s1 with
      | .error e => .error e
      | .ok (term, s2) =>
        if 0 < dictGetD s2.data.headword_entry_count term.headword 0 then
          .ok (saveHistory
            { s2 with data := { s2.data with
                entry_index :=
                  dictGetD s2.data.headword_entry_count term.headword 0 - 1 } })
        else
          .ok (saveHistory (addLog s2 (LogMsg.warnPrevNoEntries term.headword)))
    | (false, s1) => .ok (addLog s1 LogMsg.infoCannotUndo)
  else .ok (addLog s LogMsg.infoCannotUndo)

/-- `State._has_entries_for_current_word` (all exceptions collapse to
`false`; IndexError is the only one possible here). -/
def hasEntriesForCurrentWord (oracle : Oracle) (s : EngineState) :
    Bool × EngineState :=
  match pyIndex s.headwords s.data.headword_index with
  | none => (false, s)
  | some word =>
    match getTermForHeadword oracle s word with
    | (none, s1) => (false, s1)
    | (some term, s1) => (decide (0 < term.entries.length), s1)

/-- The normalisation loop of `State.__init__` (`while not
self._has_entries_for_current_word(): ...`), with fuel `len + 1` supplied
by `initState` (each iteration strictly advances the headword index). -/
def initAux (oracle : Oracle) : Nat → EngineState → Except Fatal EngineState
  | 0, _ => .error .exitOne
  | fuel + 1, s =>
    match hasEntriesForCurrentWord oracle s with
    | (true, s1) => .ok s1
    | (false, s1) =>
      match goToNextHeadword oracle s1 with
      | (true, s2) => initAux oracle fuel s2
      | (false, _) => .error .exitOne

/-- `State.__init__` for a given already-loaded `_StateData`. -/
def initState (oracle : Oracle) (headwords : List String) (d : StateData) :
    Except Fatal EngineState :=
  initAux oracle (headwords.length + 1)
    { headwords := headwords, data := d, cache := [],
      countingQueries := [], writes := [], logs := [] }

/-- `State.__init__` with no persisted history (the defaults of
`_StateData`). -/
def freshInit (oracle : Oracle) (headwords : List String) :
    Except Fatal EngineState :=
  initState oracle headwords {}

/-! ## Persistence layer (`_StateData.from_json` / `to_json`, `_load_history`) -/

/-- Parsed JSON documents (the values `json.load` can produce for the
history file; floats never occur in this format). -/
inductive Json where
  | num (n : Int)
  | str (s : String)
  | arr (xs : List Json)
  | obj (fields : List (String × Json))

/-- Building a Python dict from a field list: repeated assignment, so a
duplicated key keeps its first position and last value.  This is what
`json.loads` does with duplicate object keys. -/
def objFromPairs (ps : List (String × Json)) : List (String × Json) :=
  ps.foldl (fun acc kv => dictSet acc kv.1 kv.2) []

/-- The value produced by parsing the serialised text of a document:
identical except that duplicate object keys collapse as in `json.loads`.
This models the `json.dump` / `json.load` text round trip. -/
def normalizeJson : Json → Json
  | .num n => .num n
  | .str s => .str s
  | .arr xs => .arr (xs.attach.map fun x => normalizeJson x.1)
  | .obj fs => .obj (objFromPairs (fs.attach.map fun kv => (kv.1.1, normalizeJson kv.1.2)))
decreasing_by
  · have := List.sizeOf_lt_of_mem x.2
    simp only [Json.arr.sizeOf_spec]
    omega
  · have := List.sizeOf_lt_of_mem kv.2
    have h2 : sizeOf kv.1.2 < sizeOf kv.1 := by
      rcases kv.1 with ⟨a, b⟩
      simp only [Prod.mk.sizeOf_spec]
      omega
    simp only [Json.obj.sizeOf_spec]
    omega

/-- The uncaught exception of `_StateData.from_json` (`cls(**json_data)`
raises TypeError on a non-mapping or on an unexpected keyword). -/
inductive LoadError where
  | typeError
deriving DecidableEq, Repr

/-- Decode the `headword_entry_count` object back to the dict of the
dataclass.  Modelling restriction: a non-integer count value is rejected
here, although Python would accept the ill-typed value and only fail
later; no claim depends on such inputs. -/
def decodeCountPairs : List (String × Json) → Option (List (String × Int))
  | [] => some []
  | (k, Json.num n) :: rest => (decodeCountPairs rest).map (fun m => (k, n) :: m)
  | _ :: _ => none

/-- `_StateData.from_json`, i.e. `cls(**json_data)`: the document must be
a mapping whose keys are all dataclass fields (missing keys take the
dataclass defaults; any other key raises TypeError).  Ill-typed field
values are rejected here as well — a modelling restriction, see
`decodeCountPairs`. -/
def stateFromJson (j : Json) : Except LoadError StateData :=
  match j with
  | .obj fields =>
    if fields.all (fun kv =>
        kv.1 == "headword_index" || kv.1 == "entry_index" ||
        kv.1 == "headword_entry_count") then
      match
        (match dictGet fields "headword_index" with
          | none => some (0 : Int)
          | some (Json.num n) => some n
          | some _ => none),
        (match dictGet fields "entry_index" with
          | none => some (0 : Int)
          | some (Json.num n) => some n
          | some _ => none),
        (match dictGet fields "headword_entry_count" with
          | none => some ([] : List (String × Int))
          | some (Json.obj cs) => decodeCountPairs cs
          | some _ => none) with
      | some h, some e, some m => .ok ⟨h, e, m⟩
      | _, _, _ => .error .typeError
    else .error .typeError
  | _ => .error .typeError

/-- `_StateData.to_json` (`self.__dict__`), composed with `json.dump`:
the document written to the history file. -/
def stateToJson (d : StateData) : Json :=
  .obj [("headword_index", .num d.headword_index),
        ("entry_index", .num d.entry_index),
        ("headword_entry_count",
          .obj (d.headword_entry_count.map fun kv => (kv.1, .num kv.2)))]

/-- The possible states of the history file as `_load_history` sees it. -/
inductive HistoryFile where
  | missing
  | unreadable
  | invalidJson
  | content (j : Json)

/-- `State._load_history`: a missing file keeps the defaults; IOError and
JSONDecodeError are caught (logged, defaults kept); but the TypeError a
malformed-but-parseable document causes in `_StateData.from_json` is not
caught. -/
def loadHistory (f : HistoryFile) : Except LoadError StateData :=
  match f with
  | .missing => .ok {}
  | .unreadable => .ok {}
  | .invalidJson => .ok {}
  | .content j => stateFromJson j

/-- Outcome of running all of `State.__init__` for a given history file. -/
inductive InitOutcome where
  | fatalExit
  | uncaughtTypeError
  | ok (s : EngineState)
deriving DecidableEq, Repr

/-- `State.__init__` including the `_load_history` step. -/
def initWithHistory (oracle : Oracle) (headwords : List String)
    (f : HistoryFile) : InitOutcome :=
  match loadHistory f with
  | .error _ => .uncaughtTypeError
  | .ok d =>
    match initState oracle headwords d with
    | .error _ => .fatalExit
    | .ok s => .ok s

/-! ## Reachability and invariants -/

/-- States reachable within one run that starts with no persisted history:
the result of `State.__init__`, closed under normally-returning
`commit_entry` and `undo` calls. -/
inductive Reachable (oracle : Oracle) (headwords : List String) :
    EngineState → Prop where
  | init (s : EngineState) :
      initState oracle headwords {} = .ok s → Reachable oracle headwords s
  | commit (s s' : EngineState) :
      Reachable oracle headwords s → commitEntry oracle s = .ok s' →
      Reachable oracle headwords s'
  | undo (s s' : EngineState) :
      Reachable oracle headwords s → undoOp oracle s = .ok s' →
      Reachable oracle headwords s'

/-- The log messages an operation taking `s` to `s'` emitted. -/
def newLogs (s s' : EngineState) : List LogMsg :=
  s'.logs.drop s.logs.length

/-- The counting queries an operation taking `s` to `s'` issued to the
lookup provider in order to record an entry count. -/
def newQueries (s s' : EngineState) : List String :=
  s'.countingQueries.drop s.countingQueries.length

/-- The cursor (headword position, sense position). -/
def cursor (s : EngineState) : Int × Int :=
  (s.data.headword_index, s.data.entry_index)

/-- Strict lexicographic order on cursors. -/
def lexLt (a b : Int × Int) : Prop :=
  a.1 < b.1 ∨ (a.1 = b.1 ∧ a.2 < b.2)

/-- The invariant exactly as claim C1 states it: the current headword has a
recorded entry count that is positive, and the entry index is in bounds
for it. -/
def recordedCursorInvariant (s : EngineState) : Prop :=
  ∃ w c, pyIndex s.headwords s.data.headword_index = some w ∧
    dictGet s.data.headword_entry_count w = some c ∧ 0 < c ∧
    0 ≤ s.data.entry_index ∧ s.data.entry_index < c

/-- The cursor invariant that actually holds (amended claim C1): the
current headword's term has a positive number of senses, the entry index
is within bounds for that number, and the recorded count — when one is
recorded — is that number. -/
def cursorOk (oracle : Oracle) (s : EngineState) : Prop :=
  0 ≤ s.data.headword_index ∧
  s.data.headword_index < (s.headwords.length : Int) ∧
  0 < oracleCount oracle (curWord s) ∧
  0 ≤ s.data.entry_index ∧
  s.data.entry_index < oracleCount oracle (curWord s) ∧
  (dictGet s.data.headword_entry_count (curWord s) = none ∨
    dictGet s.data.headword_entry_count (curWord s) =
      some (oracleCount oracle (curWord s)))

/-- Reachability along operations none of which hit the terminal
"no more work" condition of `commit_entry` or the cannot-undo condition
of `undo`. -/
inductive GoodReachable (oracle : Oracle) (headwords : List String) :
    EngineState → Prop where
  | init (s : EngineState) :
      initState oracle headwords {} = .ok s → GoodReachable oracle headwords s
  | commit (s s' : EngineState) :
      GoodReachable oracle headwords s → commitEntry oracle s = .ok s' →
      LogMsg.infoReachedEnd ∉ newLogs s s' →
      GoodReachable oracle headwords s'
  | undo (s s' : EngineState) :
      GoodReachable oracle headwords s → undoOp oracle s = .ok s' →
      LogMsg.infoCannotUndo ∉ newLogs s s' →
      GoodReachable oracle headwords s'

/-- Every entry of the lookup cache is a term the oracle returned for its
key. -/
def cacheOK (oracle : Oracle) (s : EngineState) : Prop :=
  ∀ w t, dictGet s.cache w = some t → t.headword = w ∧ oracle w = some t.entries

/-- Every recorded entry count is either the oracle's count for its word,
or the 0 that `commit_entry` records when it finds no count. -/
def countsOK (oracle : Oracle) (s : EngineState) : Prop :=
  ∀ w c, dictGet s.data.headword_entry_count w = some c →
    c = oracleCount oracle w ∨ c = 0

/-- Some headword is known to be usable: either a positive count is
recorded somewhere, or the (possibly still unvisited) first headword has
senses. -/
def someUsable (oracle : Oracle) (s : EngineState) : Prop :=
  (∃ j : Nat, j < s.headwords.length ∧
      ∃ c, dictGet s.data.headword_entry_count (wordAt s j) = some c ∧ 0 < c) ∨
  0 < oracleCount oracle (wordAt s 0)

/-- The run invariant: holds at every reachable state. -/
def Inv (oracle : Oracle) (s : EngineState) : Prop :=
  0 ≤ s.data.headword_index ∧
  s.data.headword_index < (s.headwords.length : Int) ∧
  0 ≤ s.data.entry_index ∧
  cacheOK oracle s ∧
  countsOK oracle s ∧
  (∀ c, dictGet s.data.headword_entry_count (curWord s) = some c →
      s.data.entry_index < c ∨
      s.data.headword_index = (s.headwords.length : Int) - 1 ∨
      (s.data.headword_index = 0 ∧ s.data.entry_index = 0 ∧ c = 0)) ∧
  (dictGet s.data.headword_entry_count (curWord s) = none →
      s.data.headword_index = 0 ∧ s.data.entry_index = 0) ∧
  (0 < s.data.entry_index → (oracle (curWord s)).isSome) ∧
  someUsable oracle s

/-! ## Concrete inputs used by counterexamples and witnesses -/

/-- Oracle giving exactly one sense to the single word "a". -/
def oracleOneA : Oracle := fun w => if w = "a" then some [⟨0⟩] else none

/-- Oracle of the spec's scenario: one sense each for "ser" and "estar",
nothing for any other word. -/
def oracleSerEstar : Oracle := fun w =>
  if w = "ser" then some [⟨0⟩] else if w = "estar" then some [⟨1⟩] else none

/-- Oracle giving one sense to "b" and nothing to any other word. -/
def oracleOnlyB : Oracle := fun w => if w = "b" then some [⟨0⟩] else none

/-- An oracle with no terms at all. -/
def oracleEmpty : Oracle := fun _ => none

/-- Oracle giving one sense each to "a" and "b". -/
def oracleAB : Oracle := fun w =>
  if w = "a" then some [⟨0⟩] else if w = "b" then some [⟨1⟩] else none

/-- A minimal engine state sitting at the very first entry of the very
first headword. -/
def stAtStart : EngineState :=
  { headwords := ["a"], data := {}, cache := [], countingQueries := [],
    writes := [], logs := [] }

/-- A state with a corrupted lookup cache (the cached term's headword
differs from its key), used to exercise the warning branch of `undo`. -/
def stBadCache : EngineState :=
  { headwords := ["a", "b"],
    data := { headword_index := 1, entry_index := 0,
              headword_entry_count := [("a", 5)] },
    cache := [("a", ⟨"zz", [⟨0⟩]⟩)],
    countingQueries := [], writes := [], logs := [] }

/-! ## Claim theorems: concrete claims -/

/-- Claim C2, counterexample: a history file whose content is valid JSON
but not a valid saved state (an object with an unexpected key) makes
`State` initialization raise an uncaught TypeError instead of logging and
falling back to the defaults, refuting "persisted-state load failure is
always recoverable, never fatal and never an unhandled exception". -/
theorem claim_C2_counterexample :
    initWithHistory oracleEmpty ["a"]
      (HistoryFile.content (Json.obj [("bogus", Json.num 1)])) =
      InitOutcome.uncaughtTypeError := by
  rfl

/-- Claim C2, amended: a persisted-state file that is missing, unreadable,
or whose content is not decodable as JSON is recoverable — the load keeps
the default state (indices 0, empty count map) and initialization never
raises; only content that parses as JSON but is not a valid saved-state
mapping raises an uncaught TypeError (see the counterexample). -/
theorem claim_C2_amended (oracle : Oracle) (headwords : List String)
    (f : HistoryFile)
    (hf : f = HistoryFile.missing ∨ f = HistoryFile.unreadable ∨
      f = HistoryFile.invalidJson) :
    loadHistory f = .ok {} ∧
    initWithHistory oracle headwords f ≠ InitOutcome.uncaughtTypeError := by
  have hload : loadHistory f = .ok {} := by
    rcases hf with rfl | rfl | rfl <;> rfl
  refine ⟨hload, ?_⟩
  simp only [initWithHistory, hload]
  cases initState oracle headwords {} <;> simp

/-- Witness for the amended claim C2 at a concrete input. -/
theorem claim_C2_amended_witness :
    loadHistory HistoryFile.missing = .ok {} ∧
    initWithHistory oracleEmpty ["a"] HistoryFile.missing ≠
      InitOutcome.uncaughtTypeError :=
  claim_C2_amended oracleEmpty ["a"] HistoryFile.missing (Or.inl rfl)

/-- Claim C1, counterexample: after a fresh initialization whose very
first headword is usable, no entry count at all is recorded for the
current headword, so the claimed invariant "the headword at
headword_index has a recorded headword_entry_count strictly greater than
0" already fails immediately after initialization. -/
theorem claim_C1_counterexample :
    ∃ s0, initState oracleOneA ["a"] {} = .ok s0 ∧
      Reachable oracleOneA ["a"] s0 ∧ ¬ recordedCursorInvariant s0 := by
  refine ⟨_, rfl, Reachable.init _ rfl, ?_⟩
  rintro ⟨w, c, hw, hc, -⟩
  simp [dictGet] at hc

/-- Claim C9: an `undo` at the very first entry of the very first headword
is a pure no-op: it appends one informational log message and changes
nothing else — no traversal-state field, no persistence write. -/
theorem claim_C9 (oracle : Oracle) (s : EngineState)
    (hh : s.data.headword_index = 0) (he : s.data.entry_index = 0) :
    undoOp oracle s = .ok (addLog s LogMsg.infoCannotUndo) ∧
    (addLog s LogMsg.infoCannotUndo).data = s.data ∧
    (addLog s LogMsg.infoCannotUndo).writes = s.writes := by
  refine ⟨?_, rfl, rfl⟩
  unfold undoOp
  rw [hh, he]
  norm_num

/-- Witness for claim C9 at a concrete state. -/
theorem claim_C9_witness :
    undoOp oracleEmpty stAtStart = .ok (addLog stAtStart LogMsg.infoCannotUndo) :=
  (claim_C9 oracleEmpty stAtStart rfl rfl).1

/-- Claim C10: a reachable state whose earlier headwords all carry a
cached count of 0 for which `undo` reports it cannot undo (log only, no
persistence write) yet still mutates the in-memory cursor, dragging
headword_index down to 0 instead of restoring the pre-call position. -/
theorem claim_C10 :
    ∃ sInit s0 s1,
      initState oracleAB ["a", "b"] {} = .ok sInit ∧
      commitEntry oracleAB sInit = .ok s0 ∧
      Reachable oracleAB ["a", "b"] s0 ∧
      s0.data.headword_index = 1 ∧ s0.data.entry_index = 0 ∧
      (∀ j : Nat, j < s0.data.headword_index.toNat →
        dictGet s0.data.headword_entry_count (wordAt s0 j) = some 0) ∧
      undoOp oracleAB s0 = .ok s1 ∧
      LogMsg.infoCannotUndo ∈ newLogs s0 s1 ∧
      s1.writes = s0.writes ∧
      s1.data.headword_index = 0 ∧ s1.data.entry_index = 0 ∧
      s1.data.headword_index ≠ s0.data.headword_index := by
  refine ⟨_, _, _, rfl, rfl,
    Reachable.commit _ _ (Reachable.init _ rfl) rfl, ?_, ?_, ?_, rfl, ?_, ?_, ?_,
    ?_, ?_⟩ <;> decide

/-- Claim C6: on the headword list ["ser", "xyzxyz", "estar"] where
"xyzxyz" has no dictionary entries and the others one each,
initialization lands on "ser", the first commit advances straight to
"estar" (skipping "xyzxyz"), and the second commit hits the terminal
no-more-work condition. -/
theorem claim_C6 :
    ∃ s0 s1 s2,
      freshInit oracleSerEstar ["ser", "xyzxyz", "estar"] = .ok s0 ∧
      cursor s0 = (0, 0) ∧ curWord s0 = "ser" ∧
      commitEntry oracleSerEstar s0 = .ok s1 ∧
      cursor s1 = (2, 0) ∧ curWord s1 = "estar" ∧
      LogMsg.infoReachedEnd ∉ newLogs s0 s1 ∧
      commitEntry oracleSerEstar s1 = .ok s2 ∧
      LogMsg.infoReachedEnd ∈ newLogs s1 s2 := by
  refine ⟨_, _, _, rfl, ?_, ?_, rfl, ?_, ?_, ?_, rfl, ?_⟩ <;> decide

/-! ## Persistence round trip (claim C3) -/

/-- Decoding inverts the encoding of the count map. -/
theorem decodeCountPairs_map (m : List (String × Int)) :
    decodeCountPairs (m.map fun kv => (kv.1, Json.num kv.2)) = some m := by
  induction m with
  | nil => rfl
  | cons kv rest ih =>
    rcases kv with ⟨k, v⟩
    simp [decodeCountPairs, ih]

/-- Assigning a key absent from a dict appends it. -/
theorem dictSet_of_not_mem {α : Type} (acc : List (String × α)) (k : String)
    (v : α) (h : ∀ p ∈ acc, p.1 ≠ k) : dictSet acc k v = acc ++ [(k, v)] := by
  induction acc with
  | nil => rfl
  | cons p rest ih =>
    have hp : p.1 ≠ k := h p (by simp)
    simp only [dictSet, if_neg hp, List.cons_append, List.cons.injEq, true_and]
    exact ih fun q hq => h q (by simp [hq])

/-- Building a dict from key-distinct pairs reproduces the pairs. -/
theorem foldl_dictSet_of_nodup (ps : List (String × Json)) :
    ∀ acc : List (String × Json), (ps.map Prod.fst).Nodup →
    (∀ p ∈ ps, ∀ q ∈ acc, q.1 ≠ p.1) →
    ps.foldl (fun a kv => dictSet a kv.1 kv.2) acc = acc ++ ps := by
  induction ps with
  | nil => intro acc _ _; simp
  | cons p rest ih =>
    intro acc hnd hsep
    simp only [List.foldl_cons]
    rw [dictSet_of_not_mem acc p.1 p.2 (fun q hq => hsep p (by simp) q hq)]
    rw [ih (acc ++ [(p.1, p.2)]) (by simpa using hnd.of_cons) ?_]
    · simp
    · intro r hr q hq
      rcases List.mem_append.mp hq with hq | hq
      · exact hsep r (by simp [hr]) q hq
      · simp only [List.mem_singleton] at hq
        subst hq
        simp only [List.map_cons, List.nodup_cons] at hnd
        exact fun hcontra => hnd.1 (hcontra ▸ List.mem_map_of_mem Prod.fst hr)

/-- `objFromPairs` is the identity on key-distinct field lists. -/
theorem objFromPairs_of_nodup (ps : List (String × Json))
    (h : (ps.map Prod.fst).Nodup) : objFromPairs ps = ps := by
  have := foldl_dictSet_of_nodup ps [] h (by simp)
  simpa [objFromPairs] using this

/-- Mapping the field normalisation over an attached field list is mapping
it over the list itself. -/
theorem attach_map_normalize (l : List (String × Json)) :
    (l.attach.map fun kv => (kv.1.1, normalizeJson kv.1.2)) =
      l.map fun kv => (kv.1, normalizeJson kv.2) :=
  List.attach_map_coe l (fun kv => (kv.1, normalizeJson kv.2))

/-- The serialised form of a saved state parses back to itself: its object
keys are distinct (given distinct count-map keys, which a Python dict
guarantees), so the duplicate-key collapse of `json.loads` is the
identity on it. -/
theorem normalizeJson_stateToJson (d : StateData)
    (hnd : (d.headword_entry_count.map Prod.fst).Nodup) :
    normalizeJson (stateToJson d) = stateToJson d := by
  have hinner :
      normalizeJson (Json.obj (d.headword_entry_count.map fun kv => (kv.1, Json.num kv.2))) =
        Json.obj (d.headword_entry_count.map fun kv => (kv.1, Json.num kv.2)) := by
    rw [normalizeJson, attach_map_normalize]
    have hmapmap :
        ((d.headword_entry_count.map fun kv => (kv.1, Json.num kv.2)).map
          fun kv => (kv.1, normalizeJson kv.2)) =
        d.headword_entry_count.map fun kv => (kv.1, Json.num kv.2) := by
      rw [List.map_map]
      refine List.map_congr_left ?_
      intro kv _
      simp [Function.comp, normalizeJson]
    rw [hmapmap, objFromPairs_of_nodup]
    simpa using hnd
  rw [stateToJson, normalizeJson, attach_map_normalize]
  simp only [List.map_cons, List.map_nil]
  rw [show normalizeJson (Json.num d.headword_index) = Json.num d.headword_index from
      by rw [normalizeJson],
    show normalizeJson (Json.num d.entry_index) = Json.num d.entry_index from
      by rw [normalizeJson],
    hinner]
  rw [objFromPairs_of_nodup]
  simp

/-- Loading the document a state was saved as reproduces the state. -/
theorem stateFromJson_stateToJson (d : StateData) :
    stateFromJson (stateToJson d) = .ok d := by
  rcases d with ⟨h, e, m⟩
  simp [stateToJson, stateFromJson, dictGet, decodeCountPairs_map]

/-- Claim C3: the persisted record round-trips losslessly: parsing the
text written for a state (`normalizeJson ∘ stateToJson`, the
dump-then-load composition) and decoding it with `from_json` yields the
state back, hence save(load(save(state))) equals save(state).  The
hypothesis that the count-map keys are distinct is guaranteed by the
Python dict the map lives in. -/
theorem claim_C3 (d : StateData)
    (hnd : (d.headword_entry_count.map Prod.fst).Nodup) :
    stateFromJson (normalizeJson (stateToJson d)) = .ok d ∧
    (stateFromJson (normalizeJson (stateToJson d))).map stateToJson =
      .ok (stateToJson d) := by
  rw [normalizeJson_stateToJson d hnd, stateFromJson_stateToJson]
  exact ⟨rfl, rfl⟩

/-- Witness for claim C3 at a concrete state value. -/
theorem claim_C3_witness :
    stateFromJson (normalizeJson (stateToJson ⟨1, 0, [("x", 2)]⟩)) =
      .ok ⟨1, 0, [("x", 2)]⟩ :=
  (claim_C3 ⟨1, 0, [("x", 2)]⟩ (by decide)).1

/-! ## Basic lemmas about the dict and indexing helpers -/

theorem dictGet_dictSet_self {α : Type} (m : List (String × α)) (k : String)
    (v : α) : dictGet (dictSet m k v) k = some v := by
  induction m with
  | nil => simp [dictSet, dictGet]
  | cons p rest ih =>
    by_cases h : p.1 = k
    · rcases p with ⟨k', v'⟩
      simp only at h
      simp [dictSet, dictGet, h]
    · rcases p with ⟨k', v'⟩
      simp only at h
      simp [dictSet, dictGet, h, ih]

theorem dictGet_dictSet_ne {α : Type} (m : List (String × α)) (k k' : String)
    (v : α) (h : k' ≠ k) : dictGet (dictSet m k v) k' = dictGet m k' := by
  have hkk : ¬ (k = k') := fun hc => h hc.symm
  induction m with
  | nil => simp [dictSet, dictGet, hkk]
  | cons p rest ih =>
    rcases p with ⟨k0, v0⟩
    by_cases h0 : k0 = k
    · subst h0
      simp [dictSet, dictGet, hkk]
    · simp only [dictSet, if_neg h0]
      by_cases h1 : k0 = k'
      · simp [dictGet, h1]
      · simp [dictGet, h1, ih]

theorem pyIndex_nonneg {α : Type} (l : List α) (i : Int) (h0 : 0 ≤ i) :
    pyIndex l i = l[i.toNat]? := by
  simp [pyIndex, h0]

theorem pyIndex_str (l : List String) (i : Int) (h0 : 0 ≤ i)
    (h1 : i < (l.length : Int)) : pyIndex l i = some (l.getD i.toNat "") := by
  rw [pyIndex_nonneg l i h0]
  have hlt : i.toNat < l.length := by omega
  rw [List.getElem?_eq_getElem hlt, List.getD_eq_getElem l "" hlt]

theorem pyIndex_oob {α : Type} (l : List α) (i : Int)
    (h : i < -(l.length : Int) ∨ (l.length : Int) ≤ i) : pyIndex l i = none := by
  rcases h with h | h
  · have h0 : ¬ (0 ≤ i) := by
      have : (0 : Int) ≤ l.length := by positivity
      omega
    have h1 : ¬ (0 ≤ (l.length : Int) + i) := by omega
    simp [pyIndex, h0, h1]
  · have h0 : 0 ≤ i := le_trans (by positivity) h
    simp only [pyIndex, if_pos h0]
    exact List.getElem?_eq_none (by omega)

/-- Fields of the state an operation can never change, together with the
write-once/no-recount discipline of the count map (claim C7's shape):
the headword list is fixed, recorded counts persist unchanged, and every
counting query issued was for a word with no recorded count yet. -/
def PreservesCounts (s s' : EngineState) : Prop :=
  s'.headwords = s.headwords ∧
  (∃ q, s'.countingQueries = s.countingQueries ++ q ∧
    ∀ w ∈ q, dictGet s.data.headword_entry_count w = none) ∧
  ∀ w c, dictGet s.data.headword_entry_count w = some c →
    dictGet s'.data.headword_entry_count w = some c

theorem preservesCounts_refl (s : EngineState) : PreservesCounts s s :=
  ⟨rfl, ⟨[], by simp⟩, fun _ _ h => h⟩

theorem preservesCounts_trans {s1 s2 s3 : EngineState}
    (h12 : PreservesCounts s1 s2) (h23 : PreservesCounts s2 s3) :
    PreservesCounts s1 s3 := by
  obtain ⟨hw12, ⟨q1, hq1, habs1⟩, hk12⟩ := h12
  obtain ⟨hw23, ⟨q2, hq2, habs2⟩, hk23⟩ := h23
  refine ⟨hw23.trans hw12, ⟨q1 ++ q2, by rw [hq2, hq1, List.append_assoc], ?_⟩,
    fun w c h => hk23 w c (hk12 w c h)⟩
  intro w hw
  rcases List.mem_append.mp hw with hw | hw
  · exact habs1 w hw
  · rcases hget : dictGet s1.data.headword_entry_count w with - | c
    · rfl
    · exact absurd (hk12 w c hget) (by simp [habs2 w hw])

/-- All fields except the lookup cache coincide. -/
def SameExceptCache (s s' : EngineState) : Prop :=
  s'.headwords = s.headwords ∧ s'.data = s.data ∧
  s'.countingQueries = s.countingQueries ∧ s'.writes = s.writes ∧
  s'.logs = s.logs

theorem sameExceptCache_preservesCounts {s s' : EngineState}
    (h : SameExceptCache s s') : PreservesCounts s s' :=
  ⟨h.1, ⟨[], by simp [h.2.2.1], by simp⟩, fun w c hc => by rw [h.2.1]; exact hc⟩

/-! ## Lemmas about `getTermForHeadword` -/

theorem getTerm_sameExceptCache (oracle : Oracle) (s : EngineState)
    (w : String) : SameExceptCache s (getTermForHeadword oracle s w).2 := by
  unfold getTermForHeadword
  rcases dictGet s.cache w with - | t
  · rcases oracle w with - | es
    · exact ⟨rfl, rfl, rfl, rfl, rfl⟩
    · exact ⟨rfl, rfl, rfl, rfl, rfl⟩
  · exact ⟨rfl, rfl, rfl, rfl, rfl⟩

theorem getTerm_cacheOK (oracle : Oracle) (s : EngineState) (w : String)
    (hc : cacheOK oracle s) : cacheOK oracle (getTermForHeadword oracle s w).2 := by
  unfold getTermForHeadword
  rcases hcget : dictGet s.cache w with - | t
  · rcases hor : oracle w with - | es
    · exact hc
    · intro w' t' hget
      have hdata : dictGet (dictSet s.cache w ⟨w, es⟩) w' = some t' := hget
      by_cases hww : w' = w
      · subst hww
        rw [dictGet_dictSet_self] at hdata
        cases hdata
        exact ⟨rfl, hor⟩
      · rw [dictGet_dictSet_ne _ _ _ _ hww] at hdata
        exact hc w' t' hdata
  · exact hc

theorem getTerm_fst (oracle : Oracle) (s : EngineState) (w : String)
    (hc : cacheOK oracle s) :
    (getTermForHeadword oracle s w).1 = (oracle w).map (fun es => ⟨w, es⟩) := by
  unfold getTermForHeadword
  rcases hcget : dictGet s.cache w with - | t
  · rcases hor : oracle w with - | es <;> simp
  · obtain ⟨hhw, hor⟩ := hc w t hcget
    rcases t with ⟨tw, tes⟩
    simp only at hhw
    subst hhw
    simp [hor]

/-! ## Lemmas about `setHeadwordIndex` -/

theorem setHeadwordIndex_oob (oracle : Oracle) (s : EngineState) (i : Int)
    (h : ¬ (0 ≤ i ∧ i < (s.headwords.length : Int))) :
    setHeadwordIndex oracle s i = (none, addLog s (LogMsg.errIndexOutOfRange i)) := by
  unfold setHeadwordIndex
  rw [dif_neg h]

/-- In-bounds `_set_headword_index` with the target word's count already
recorded: it only moves the cursor. -/
theorem setHeadwordIndex_present (oracle : Oracle) (s : EngineState) (i : Int)
    (h0 : 0 ≤ i) (h1 : i < (s.headwords.length : Int))
    (hrec : (dictGet s.data.headword_entry_count (wordAt s i.toNat)).isSome) :
    setHeadwordIndex oracle s i =
      (some (wordAt s i.toNat),
        { s with data := { s.data with headword_index := i, entry_index := 0 } }) := by
  unfold setHeadwordIndex
  rw [dif_pos ⟨h0, h1⟩]
  have hlt : i.toNat < s.headwords.length := by omega
  have hword : s.headwords.get ⟨i.toNat, by omega⟩ = wordAt s i.toNat := by
    rw [wordAt, List.get_eq_getElem, List.getD_eq_getElem s.headwords "" hlt]
  simp only [hword]
  rw [if_pos hrec]

/-- In-bounds `_set_headword_index` with no recorded count for the target
word: it moves the cursor, queries the lookup once, and records the
count the oracle supports (assuming an honest cache). -/
theorem setHeadwordIndex_absent (oracle : Oracle) (s : EngineState) (i : Int)
    (h0 : 0 ≤ i) (h1 : i < (s.headwords.length : Int)) (hc : cacheOK oracle s)
    (habs : dictGet s.data.headword_entry_count (wordAt s i.toNat) = none) :
    ∃ s', setHeadwordIndex oracle s i = (some (wordAt s i.toNat), s') ∧
      s'.headwords = s.headwords ∧ s'.writes = s.writes ∧ s'.logs = s.logs ∧
      s'.data.headword_index = i ∧ s'.data.entry_index = 0 ∧
      cacheOK oracle s' ∧
      s'.data.headword_entry_count =
        dictSet s.data.headword_entry_count (wordAt s i.toNat)
          (oracleCount oracle (wordAt s i.toNat)) ∧
      s'.countingQueries = s.countingQueries ++ [wordAt s i.toNat] := by
  unfold setHeadwordIndex
  rw [dif_pos ⟨h0, h1⟩]
  have hlt : i.toNat < s.headwords.length := by omega
  have hword : s.headwords.get ⟨i.toNat, by omega⟩ = wordAt s i.toNat := by
    rw [wordAt, List.get_eq_getElem, List.getD_eq_getElem s.headwords "" hlt]
  simp only [hword]
  rw [if_neg (by simp [habs])]
  set w := wordAt s i.toNat with hw
  set s1 : EngineState :=
    { s with data := { s.data with headword_index := i, entry_index := 0 } } with hs1
  have hc1 : cacheOK oracle s1 := hc
  have hfst := getTerm_fst oracle s1 w hc1
  have hsec := getTerm_sameExceptCache oracle s1 w
  have hcok := getTerm_cacheOK oracle s1 w hc1
  obtain ⟨hhw, hdata, hq, hwr, hlg⟩ := hsec
  refine ⟨_, rfl, ?_, ?_, ?_, ?_, ?_, ?_, ?_, ?_⟩
  · simpa using hhw
  · simpa using hwr
  · simpa using hlg
  · simp [hdata]
  · simp [hdata]
  · exact hcok
  · have hcount :
        (match (getTermForHeadword oracle s1 w).1 with
          | some t => (t.entries.length : Int)
          | none => 0) = oracleCount oracle w := by
      rw [hfst]
      rcases hor : oracle w with - | es <;> simp [oracleCount, hor]
    simp only [hcount, hdata]
  · simpa using hq

/-- In-bounds `_set_headword_index`, consolidated: cursor moved, a count
recorded for the target word that is consistent with `countsOK`, other
records untouched, ghost fields respected. -/
theorem setHeadwordIndex_spec (oracle : Oracle) (s : EngineState) (i : Int)
    (h0 : 0 ≤ i) (h1 : i < (s.headwords.length : Int)) (hc : cacheOK oracle s) :
    ∃ s', setHeadwordIndex oracle s i = (some (wordAt s i.toNat), s') ∧
      s'.headwords = s.headwords ∧ s'.writes = s.writes ∧ s'.logs = s.logs ∧
      s'.data.headword_index = i ∧ s'.data.entry_index = 0 ∧
      cacheOK oracle s' ∧ PreservesCounts s s' ∧
      (countsOK oracle s → countsOK oracle s') ∧
      (∃ c, dictGet s'.data.headword_entry_count (wordAt s i.toNat) = some c ∧
        (dictGet s.data.headword_entry_count (wordAt s i.toNat) = some c ∨
          c = oracleCount oracle (wordAt s i.toNat))) := by
  set w := wordAt s i.toNat with hw
  rcases hrec : dictGet s.data.headword_entry_count w with - | c
  · obtain ⟨s', heq, hhw, hwr, hlg, hhi, hei, hcok, hmap, hq⟩ :=
      setHeadwordIndex_absent oracle s i h0 h1 hc hrec
    refine ⟨s', heq, hhw, hwr, hlg, hhi, hei, hcok, ?_, ?_, ?_⟩
    · refine ⟨hhw, ⟨[w], hq, by simpa using hrec⟩, ?_⟩
      intro w' c' hgw
      rw [hmap]
      have hne : w' ≠ w := fun hcon => by
        subst hcon
        rw [hgw] at hrec
        cases hrec
      rw [dictGet_dictSet_ne _ _ _ _ hne]
      exact hgw
    · intro hk w' c' hgw
      rw [hmap] at hgw
      by_cases hne : w' = w
      · subst hne
        rw [dictGet_dictSet_self] at hgw
        cases hgw
        exact Or.inl rfl
      · rw [dictGet_dictSet_ne _ _ _ _ hne] at hgw
        exact hk w' c' hgw
    · refine ⟨oracleCount oracle w, ?_, Or.inr rfl⟩
      rw [hmap, dictGet_dictSet_self]
  · rw [setHeadwordIndex_present oracle s i h0 h1 (by simp [hrec])]
    refine ⟨_, rfl, rfl, rfl, rfl, rfl, rfl, hc, ?_, fun hk => hk, ⟨c, hrec, Or.inl rfl⟩⟩
    exact ⟨rfl, ⟨[], by simp, by simp⟩, fun _ _ h => h⟩

/-! ## The write-once / no-recount discipline through every operation -/

theorem addLog_preservesCounts (s : EngineState) (m : LogMsg) :
    PreservesCounts s (addLog s m) :=
  ⟨rfl, ⟨[], by simp [addLog], by simp⟩, fun _ _ h => h⟩

theorem saveHistory_preservesCounts (s : EngineState) :
    PreservesCounts s (saveHistory s) :=
  ⟨rfl, ⟨[], by simp [saveHistory], by simp⟩, fun _ _ h => h⟩

/-- In-bounds `_set_headword_index` on an unrecorded word, without any
cache assumption: the count recorded is whatever the cached-or-fresh term
supports. -/
theorem setHeadwordIndex_absent_raw (oracle : Oracle) (s : EngineState)
    (i : Int) (h0 : 0 ≤ i) (h1 : i < (s.headwords.length : Int))
    (habs : dictGet s.data.headword_entry_count (wordAt s i.toNat) = none) :
    ∃ s' K, setHeadwordIndex oracle s i = (some (wordAt s i.toNat), s') ∧
      s'.headwords = s.headwords ∧ s'.writes = s.writes ∧ s'.logs = s.logs ∧
      s'.data.headword_index = i ∧ s'.data.entry_index = 0 ∧
      s'.data.headword_entry_count =
        dictSet s.data.headword_entry_count (wordAt s i.toNat) K ∧
      s'.countingQueries = s.countingQueries ++ [wordAt s i.toNat] := by
  unfold setHeadwordIndex
  rw [dif_pos ⟨h0, h1⟩]
  have hlt : i.toNat < s.headwords.length := by omega
  have hword : s.headwords.get ⟨i.toNat, by omega⟩ = wordAt s i.toNat := by
    rw [wordAt, List.get_eq_getElem, List.getD_eq_getElem s.headwords "" hlt]
  simp only [hword]
  rw [if_neg (by simp [habs])]
  set w := wordAt s i.toNat with hw
  set s1 : EngineState :=
    { s with data := { s.data with headword_index := i, entry_index := 0 } } with hs1
  obtain ⟨hhw, hdata, hq, hwr, hlg⟩ := getTerm_sameExceptCache oracle s1 w
  refine ⟨_,
    (match (getTermForHeadword oracle s1 w).1 with
      | some t => (t.entries.length : Int)
      | none => 0),
    rfl, by simpa using hhw, by simpa using hwr, by simpa using hlg,
    by simp [hdata], by simp [hdata], by simp [hdata], by simpa using hq⟩

theorem setHeadwordIndex_preservesCounts (oracle : Oracle) (s : EngineState)
    (i : Int) : PreservesCounts s (setHeadwordIndex oracle s i).2 := by
  by_cases hb : 0 ≤ i ∧ i < (s.headwords.length : Int)
  · rcases hrec : dictGet s.data.headword_entry_count (wordAt s i.toNat) with - | c
    · obtain ⟨s', K, heq, hhw, hwr, hlg, hhi, hei, hmap, hq⟩ :=
        setHeadwordIndex_absent_raw oracle s i hb.1 hb.2 hrec
      rw [heq]
      refine ⟨hhw, ⟨[wordAt s i.toNat], hq, by simpa using hrec⟩, ?_⟩
      intro w' c' hgw
      rw [hmap]
      have hne : w' ≠ wordAt s i.toNat := fun hcon => by
        subst hcon
        rw [hgw] at hrec
        cases hrec
      rw [dictGet_dictSet_ne _ _ _ _ hne]
      exact hgw
    · rw [setHeadwordIndex_present oracle s i hb.1 hb.2 (by simp [hrec])]
      exact ⟨rfl, ⟨[], by simp, by simp⟩, fun _ _ h => h⟩
  · rw [setHeadwordIndex_oob oracle s i hb]
    exact addLog_preservesCounts s _

theorem advanceHeadword_preservesCounts (oracle : Oracle) (step : Int) :
    ∀ (fuel : Nat) (s : EngineState),
      PreservesCounts s (advanceHeadword oracle step fuel s).2 := by
  intro fuel
  induction fuel with
  | zero => intro s; exact preservesCounts_refl s
  | succ fuel ih =>
    intro s
    unfold advanceHeadword
    by_cases hb : 0 ≤ s.data.headword_index + step ∧
        s.data.headword_index + step < (s.headwords.length : Int)
    · rw [if_pos hb]
      rcases hset : setHeadwordIndex oracle s (s.data.headword_index + step)
        with ⟨w?, s'⟩
      have hpres : PreservesCounts s s' := by
        have := setHeadwordIndex_preservesCounts oracle s
          (s.data.headword_index + step)
        rwa [hset] at this
      rcases w? with - | w
      · exact hpres
      · simp only []
        by_cases hcnt : 0 < dictGetD s'.data.headword_entry_count w 0
        · rw [if_pos hcnt]
          exact hpres
        · rw [if_neg hcnt]
          exact preservesCounts_trans hpres (ih s')
    · rw [if_neg hb]
      exact preservesCounts_refl s

theorem currentTermAux_preservesCounts (oracle : Oracle) :
    ∀ (fuel : Nat) (s : EngineState) (t : DictionaryTerm) (s1 : EngineState),
      currentTermAux oracle fuel s = .ok (t, s1) → PreservesCounts s s1 := by
  intro fuel
  induction fuel with
  | zero => intro s t s1 h; cases h
  | succ fuel ih =>
    intro s t s1 h
    unfold currentTermAux at h
    split at h
    · cases h
    · rename_i word hpy
      split at h
      · rename_i sg hget
        split at h
        · rename_i s2 hadv
          have hpresg : PreservesCounts s sg := by
            have := sameExceptCache_preservesCounts
              (getTerm_sameExceptCache oracle s word)
            rwa [hget] at this
          have hpres2 :
              PreservesCounts (addLog sg (LogMsg.warnSkipHeadword word)) s2 := by
            have := advanceHeadword_preservesCounts oracle 1
              ((addLog sg (LogMsg.warnSkipHeadword word)).headwords.length + 1)
              (addLog sg (LogMsg.warnSkipHeadword word))
            rw [goToNextHeadword] at hadv
            rwa [hadv] at this
          exact preservesCounts_trans hpresg
            (preservesCounts_trans (addLog_preservesCounts sg _)
              (preservesCounts_trans hpres2 (ih s2 t s1 h)))
        · cases h
      · rename_i term sg hget
        cases h
        have := sameExceptCache_preservesCounts
          (getTerm_sameExceptCache oracle s word)
        rwa [hget] at this

theorem currentTermOp_preservesCounts (oracle : Oracle) (s : EngineState)
    (t : DictionaryTerm) (s1 : EngineState)
    (h : currentTermOp oracle s = .ok (t, s1)) : PreservesCounts s s1 :=
  currentTermAux_preservesCounts oracle _ s t s1 h

theorem commitAdvance_preservesCounts (oracle : Oracle) (c : Int)
    (s2 : EngineState) : PreservesCounts s2 (commitAdvance oracle c s2) := by
  unfold commitAdvance
  by_cases hb : c ≤ s2.data.entry_index
  · rw [if_pos hb]
    rcases hadv : goToNextHeadword oracle s2 with ⟨ok?, s3⟩
    have hadv' : advanceHeadword oracle 1 (s2.headwords.length + 1) s2 = (ok?, s3) :=
      hadv
    have hp := advanceHeadword_preservesCounts oracle 1 (s2.headwords.length + 1) s2
    rw [hadv'] at hp
    rcases ok? with - | -
    · exact preservesCounts_trans hp (addLog_preservesCounts s3 _)
    · exact hp
  · rw [if_neg hb]
    exact preservesCounts_refl s2

theorem commitEntry_preservesCounts (oracle : Oracle) (s s' : EngineState)
    (h : commitEntry oracle s = .ok s') : PreservesCounts s s' := by
  unfold commitEntry at h
  split at h
  · cases h
  · rename_i term s1 hct
    have hp0 : PreservesCounts s
        { s with data := { s.data with entry_index := s.data.entry_index + 1 } } :=
      ⟨rfl, ⟨[], by simp, by simp⟩, fun _ _ hg => hg⟩
    have hp1 := currentTermOp_preservesCounts oracle _ term s1 hct
    split at h
    · rename_i c hrec
      cases h
      exact preservesCounts_trans hp0 (preservesCounts_trans hp1
        (preservesCounts_trans (commitAdvance_preservesCounts oracle c s1)
          (saveHistory_preservesCounts _)))
    · rename_i hrec
      cases h
      have hmid : PreservesCounts s1
          (addLog
            { s1 with data := { s1.data with
                headword_entry_count :=
                  dictSet s1.data.headword_entry_count term.headword 0 } }
            (LogMsg.errNoEntryCount term.headword)) := by
        refine ⟨rfl, ⟨[], by simp [addLog], by simp⟩, ?_⟩
        intro w' c' hgw
        have hne : w' ≠ term.headword := fun hcon => by
          subst hcon
          rw [hgw] at hrec
          cases hrec
        show dictGet (dictSet s1.data.headword_entry_count term.headword 0) w' =
          some c'
        rw [dictGet_dictSet_ne _ _ _ _ hne]
        exact hgw
      exact preservesCounts_trans hp0 (preservesCounts_trans hp1
        (preservesCounts_trans hmid
          (preservesCounts_trans (commitAdvance_preservesCounts oracle 0 _)
            (saveHistory_preservesCounts _))))

theorem undoOp_preservesCounts (oracle : Oracle) (s s' : EngineState)
    (h : undoOp oracle s = .ok s') : PreservesCounts s s' := by
  unfold undoOp at h
  by_cases he : 0 < s.data.entry_index
  · rw [if_pos he] at h
    cases h
    exact ⟨rfl, ⟨[], by simp [saveHistory], by simp⟩, fun _ _ hg => hg⟩
  · rw [if_neg he] at h
    by_cases hh : 0 < s.data.headword_index
    · rw [if_pos hh] at h
      rcases hadv : goToPreviousHeadword oracle s with ⟨ok?, s1⟩
      have hadv' : advanceHeadword oracle (-1) (s.headwords.length + 1) s = (ok?, s1) :=
        hadv
      have hp := advanceHeadword_preservesCounts oracle (-1) (s.headwords.length + 1) s
      rw [hadv'] at hp
      rw [hadv] at h
      rcases ok? with - | -
      · simp only [] at h
        cases h
        exact preservesCounts_trans hp (addLog_preservesCounts s1 _)
      · simp only [] at h
        split at h
        · cases h
        · rename_i term s2 hct
          have hp2 := currentTermOp_preservesCounts oracle s1 term s2 hct
          split at h <;> cases h
          · exact preservesCounts_trans hp (preservesCounts_trans hp2
              ⟨rfl, ⟨[], by simp [saveHistory], by simp⟩, fun _ _ hg => hg⟩)
          · exact preservesCounts_trans hp (preservesCounts_trans hp2
              (preservesCounts_trans (addLog_preservesCounts s2 _)
                (saveHistory_preservesCounts _)))
    · rw [if_neg hh] at h
      cases h
      exact addLog_preservesCounts s _

theorem currentEntryOp_preservesCounts (oracle : Oracle) (s : EngineState)
    (en : DictionaryEntry) (s1 : EngineState)
    (h : currentEntryOp oracle s = .ok (en, s1)) : PreservesCounts s s1 := by
  unfold currentEntryOp at h
  split at h
  · cases h
  · rename_i term s2 hct
    split at h
    · cases h
    · split at h
      · cases h
        exact currentTermOp_preservesCounts oracle s term s1 hct
      · cases h

theorem preservesCounts_stable {s s' : EngineState} (h : PreservesCounts s s')
    (w : String) (c : Int)
    (hrec : dictGet s.data.headword_entry_count w = some c) :
    dictGet s'.data.headword_entry_count w = some c ∧ w ∉ newQueries s s' := by
  obtain ⟨-, ⟨q, hq, habs⟩, hkeep⟩ := h
  refine ⟨hkeep w c hrec, ?_⟩
  rw [newQueries, hq, List.drop_left]
  intro hmem
  rw [habs w hmem] at hrec
  cases hrec

/-- Claim C7: once a word has a recorded entry count, no engine operation
(commit, undo, current_term, current_entry) changes that value, and none
of them ever issues a counting query to the lookup provider for that
word again. -/
theorem claim_C7 (oracle : Oracle) (s : EngineState) (w : String) (c : Int)
    (hrec : dictGet s.data.headword_entry_count w = some c) :
    (∀ s', commitEntry oracle s = .ok s' →
      dictGet s'.data.headword_entry_count w = some c ∧ w ∉ newQueries s s') ∧
    (∀ s', undoOp oracle s = .ok s' →
      dictGet s'.data.headword_entry_count w = some c ∧ w ∉ newQueries s s') ∧
    (∀ t s', currentTermOp oracle s = .ok (t, s') →
      dictGet s'.data.headword_entry_count w = some c ∧ w ∉ newQueries s s') ∧
    (∀ en s', currentEntryOp oracle s = .ok (en, s') →
      dictGet s'.data.headword_entry_count w = some c ∧ w ∉ newQueries s s') := by
  refine ⟨fun s' h => ?_, fun s' h => ?_, fun t s' h => ?_, fun en s' h => ?_⟩
  · exact preservesCounts_stable (commitEntry_preservesCounts oracle s s' h) w c hrec
  · exact preservesCounts_stable (undoOp_preservesCounts oracle s s' h) w c hrec
  · exact preservesCounts_stable (currentTermOp_preservesCounts oracle s t s' h) w c hrec
  · exact preservesCounts_stable (currentEntryOp_preservesCounts oracle s en s' h) w c hrec

/-- Witness for claim C7 at a concrete state: committing from the state
reached after one commit on the two-word list preserves the recorded
count of "a" and never recounts it. -/
theorem claim_C7_witness :
    ∃ sInit s0, initState oracleAB ["a", "b"] {} = .ok sInit ∧
      commitEntry oracleAB sInit = .ok s0 ∧
      dictGet s0.data.headword_entry_count "a" = some 0 ∧
      ∀ s', undoOp oracleAB s0 = .ok s' →
        dictGet s'.data.headword_entry_count "a" = some 0 ∧
          "a" ∉ newQueries s0 s' := by
  refine ⟨_, _, rfl, rfl, by decide, ?_⟩
  exact (claim_C7 oracleAB _ "a" 0 (by decide)).2.1

/-! ## Scan lemmas for `_advance_headword` -/

theorem wordAt_congr {s s' : EngineState} (h : s'.headwords = s.headwords)
    (j : Nat) : wordAt s' j = wordAt s j := by
  rw [wordAt, wordAt, h]

/-- Forward scan, no assumptions: the headword list and the pending writes
are untouched, and the cursor either stays put or strictly advances to an
in-bounds position with entry index 0; it strictly advances whenever the
scan succeeds. -/
theorem advanceOne_light (oracle : Oracle) :
    ∀ (fuel : Nat) (s : EngineState) (b : Bool) (s' : EngineState),
      advanceHeadword oracle 1 fuel s = (b, s') →
      s'.headwords = s.headwords ∧ s'.writes = s.writes ∧
      (s'.data = s.data ∨
        (s.data.headword_index < s'.data.headword_index ∧
          s'.data.entry_index = 0 ∧ 0 ≤ s'.data.headword_index ∧
          s'.data.headword_index < (s.headwords.length : Int))) ∧
      (b = true →
        s.data.headword_index < s'.data.headword_index ∧
        s'.data.entry_index = 0 ∧ 0 ≤ s'.data.headword_index ∧
        s'.data.headword_index < (s.headwords.length : Int)) := by
  intro fuel
  induction fuel with
  | zero =>
    intro s b s' h
    unfold advanceHeadword at h
    injection h with hb hs
    subst hs
    refine ⟨rfl, rfl, Or.inl rfl, fun ht => ?_⟩
    rw [ht] at hb
    cases hb
  | succ fuel ih =>
    intro s b s' h
    unfold advanceHeadword at h
    by_cases hb : 0 ≤ s.data.headword_index + 1 ∧
        s.data.headword_index + 1 < (s.headwords.length : Int)
    · rw [if_pos hb] at h
      rcases hrec : dictGet s.data.headword_entry_count
          (wordAt s (s.data.headword_index + 1).toNat) with - | c0
      · obtain ⟨sMid, K, hset, hhw, hwr, hlg, hhi, hei, hmap, hq⟩ :=
          setHeadwordIndex_absent_raw oracle s (s.data.headword_index + 1)
            hb.1 hb.2 hrec
        rw [hset] at h
        simp only [] at h
        by_cases hguard : 0 < dictGetD sMid.data.headword_entry_count
            (wordAt s (s.data.headword_index + 1).toNat) 0
        · rw [if_pos hguard] at h
          injection h with hb2 hs2
          subst hs2
          subst hb2
          refine ⟨hhw, hwr, Or.inr ⟨by omega, hei, by omega, by omega⟩,
            fun _ => ⟨by omega, hei, by omega, by omega⟩⟩
        · rw [if_neg hguard] at h
          obtain ⟨ihw, iwr, idata, istrict⟩ := ih sMid b s' h
          refine ⟨ihw.trans hhw, iwr.trans hwr, ?_, ?_⟩
          · rcases idata with heq | hlt
            · rw [heq]
              exact Or.inr ⟨by omega, hei, by omega, by omega⟩
            · refine Or.inr ⟨by omega, hlt.2.1, hlt.2.2.1, ?_⟩
              have : (sMid.headwords.length : Int) = (s.headwords.length : Int) := by
                rw [hhw]
              omega
          · intro ht
            obtain ⟨hlt, he0, hge, hub⟩ := istrict ht
            have : (sMid.headwords.length : Int) = (s.headwords.length : Int) := by
              rw [hhw]
            exact ⟨by omega, he0, hge, by omega⟩
      · rw [setHeadwordIndex_present oracle s (s.data.headword_index + 1)
          hb.1 hb.2 (by simp [hrec])] at h
        simp only [] at h
        set sMid : EngineState :=
          { s with data := { s.data with
              headword_index := s.data.headword_index + 1,
              entry_index := 0 } } with hsMid
        have hMidh : sMid.data.headword_index = s.data.headword_index + 1 := rfl
        have hMide : sMid.data.entry_index = 0 := rfl
        have hMidw : sMid.headwords = s.headwords := rfl
        have hMidwr : sMid.writes = s.writes := rfl
        by_cases hguard : 0 < dictGetD sMid.data.headword_entry_count
            (wordAt s (s.data.headword_index + 1).toNat) 0
        · rw [if_pos hguard] at h
          injection h with hb2 hs2
          subst hs2
          subst hb2
          exact ⟨hMidw, hMidwr, Or.inr ⟨by omega, hMide, by omega, by omega⟩,
            fun _ => ⟨by omega, hMide, by omega, by omega⟩⟩
        · rw [if_neg hguard] at h
          obtain ⟨ihw, iwr, idata, istrict⟩ := ih sMid b s' h
          have hlen : (sMid.headwords.length : Int) = (s.headwords.length : Int) := by
            rw [hMidw]
          refine ⟨ihw.trans hMidw, iwr.trans hMidwr, ?_, ?_⟩
          · rcases idata with heq | hlt
            · rw [heq]
              exact Or.inr ⟨by omega, hMide, by omega, by omega⟩
            · exact Or.inr ⟨by omega, hlt.2.1, hlt.2.2.1, by omega⟩
          · intro ht
            obtain ⟨hlt, he0, hge, hub⟩ := istrict ht
            exact ⟨by omega, he0, hge, by omega⟩
    · rw [if_neg hb] at h
      injection h with hb2 hs
      subst hs
      refine ⟨rfl, rfl, Or.inl rfl, fun ht => ?_⟩
      rw [ht] at hb2
      cases hb2

/-- Forward scan, success: the cursor strictly advances to an in-bounds
headword with a positive recorded count and entry index 0, every headword
passed over got a non-positive recorded count, and the cache/count
invariants are preserved. -/
theorem advanceOne_true (oracle : Oracle) :
    ∀ (fuel : Nat) (s s' : EngineState),
      cacheOK oracle s → countsOK oracle s →
      advanceHeadword oracle 1 fuel s = (true, s') →
      cacheOK oracle s' ∧ countsOK oracle s' ∧ PreservesCounts s s' ∧
      s'.writes = s.writes ∧ s'.logs = s.logs ∧
      s.data.headword_index < s'.data.headword_index ∧
      0 ≤ s'.data.headword_index ∧
      s'.data.headword_index < (s.headwords.length : Int) ∧
      s'.data.entry_index = 0 ∧
      (∃ c, dictGet s'.data.headword_entry_count (curWord s') = some c ∧ 0 < c) ∧
      (∀ j : Int, s.data.headword_index < j → j < s'.data.headword_index →
        ∃ cj, dictGet s'.data.headword_entry_count (wordAt s j.toNat) = some cj ∧
          cj ≤ 0) := by
  intro fuel
  induction fuel with
  | zero =>
    intro s s' hc hk h
    unfold advanceHeadword at h
    injection h with hb hs
    cases hb
  | succ fuel ih =>
    intro s s' hc hk h
    unfold advanceHeadword at h
    by_cases hb : 0 ≤ s.data.headword_index + 1 ∧
        s.data.headword_index + 1 < (s.headwords.length : Int)
    · rw [if_pos hb] at h
      obtain ⟨sMid, hset, hhw, hwr, hlg, hhi, hei, hcok, hpres, hkpres,
          ⟨c, hcrec, hcor⟩⟩ :=
        setHeadwordIndex_spec oracle s (s.data.headword_index + 1) hb.1 hb.2 hc
      rw [hset] at h
      simp only [] at h
      have hlen : (sMid.headwords.length : Int) = (s.headwords.length : Int) := by
        rw [hhw]
      by_cases hguard : 0 < dictGetD sMid.data.headword_entry_count
          (wordAt s (s.data.headword_index + 1).toNat) 0
      · rw [if_pos hguard] at h
        injection h with hb2 hs2
        subst hs2
        have hgd : dictGetD sMid.data.headword_entry_count
            (wordAt s (s.data.headword_index + 1).toNat) 0 = c := by
          rw [dictGetD, hcrec]
          rfl
        have hcur : curWord sMid = wordAt s (s.data.headword_index + 1).toNat := by
          rw [curWord, hhi, wordAt_congr hhw]
        refine ⟨hcok, hkpres hk, hpres, hwr, hlg, by omega, by omega, by omega, hei,
          ⟨c, by rw [hcur]; exact hcrec, by omega⟩, ?_⟩
        intro j hj1 hj2
        exfalso
        omega
      · rw [if_neg hguard] at h
        obtain ⟨icok, ikok, ipres, iwr, ilg, ilt, ige, iub, ie0, icur, igap⟩ :=
          ih sMid s' hcok (hkpres hk) h
        have hgd : dictGetD sMid.data.headword_entry_count
            (wordAt s (s.data.headword_index + 1).toNat) 0 = c := by
          rw [dictGetD, hcrec]
          rfl
        refine ⟨icok, ikok, preservesCounts_trans hpres ipres, iwr.trans hwr,
          ilg.trans hlg, by omega, ige, by omega, ie0, icur, ?_⟩
        intro j hj1 hj2
        by_cases hj : j = s.data.headword_index + 1
        · subst hj
          exact ⟨c, (ipres.2.2 _ c hcrec), by omega⟩
        · have := igap j (by omega) hj2
          rwa [wordAt_congr hhw] at this
    · rw [if_neg hb] at h
      injection h with hb2 hs
      cases hb2

/-- Backward scan, success: symmetric to `advanceOne_true`. -/
theorem advanceNegOne_true (oracle : Oracle) :
    ∀ (fuel : Nat) (s s' : EngineState),
      cacheOK oracle s → countsOK oracle s →
      advanceHeadword oracle (-1) fuel s = (true, s') →
      cacheOK oracle s' ∧ countsOK oracle s' ∧ PreservesCounts s s' ∧
      s'.writes = s.writes ∧ s'.logs = s.logs ∧
      s'.data.headword_index < s.data.headword_index ∧
      0 ≤ s'.data.headword_index ∧
      s'.data.headword_index < (s.headwords.length : Int) ∧
      s'.data.entry_index = 0 ∧
      (∃ c, dictGet s'.data.headword_entry_count (curWord s') = some c ∧ 0 < c) ∧
      (∀ j : Int, s'.data.headword_index < j → j < s.data.headword_index →
        ∃ cj, dictGet s'.data.headword_entry_count (wordAt s j.toNat) = some cj ∧
          cj ≤ 0) := by
  intro fuel
  induction fuel with
  | zero =>
    intro s s' hc hk h
    unfold advanceHeadword at h
    injection h with hb hs
    cases hb
  | succ fuel ih =>
    intro s s' hc hk h
    unfold advanceHeadword at h
    by_cases hb : 0 ≤ s.data.headword_index + (-1) ∧
        s.data.headword_index + (-1) < (s.headwords.length : Int)
    · rw [if_pos hb] at h
      obtain ⟨sMid, hset, hhw, hwr, hlg, hhi, hei, hcok, hpres, hkpres,
          ⟨c, hcrec, hcor⟩⟩ :=
        setHeadwordIndex_spec oracle s (s.data.headword_index + (-1)) hb.1 hb.2 hc
      rw [hset] at h
      simp only [] at h
      have hlen : (sMid.headwords.length : Int) = (s.headwords.length : Int) := by
        rw [hhw]
      by_cases hguard : 0 < dictGetD sMid.data.headword_entry_count
          (wordAt s (s.data.headword_index + (-1)).toNat) 0
      · rw [if_pos hguard] at h
        injection h with hb2 hs2
        subst hs2
        have hgd : dictGetD sMid.data.headword_entry_count
            (wordAt s (s.data.headword_index + (-1)).toNat) 0 = c := by
          rw [dictGetD, hcrec]
          rfl
        have hcur : curWord sMid = wordAt s (s.data.headword_index + (-1)).toNat := by
          rw [curWord, hhi, wordAt_congr hhw]
        refine ⟨hcok, hkpres hk, hpres, hwr, hlg, by omega, by omega, by omega, hei,
          ⟨c, by rw [hcur]; exact hcrec, by omega⟩, ?_⟩
        intro j hj1 hj2
        exfalso
        omega
      · rw [if_neg hguard] at h
        obtain ⟨icok, ikok, ipres, iwr, ilg, ilt, ige, iub, ie0, icur, igap⟩ :=
          ih sMid s' hcok (hkpres hk) h
        have hgd : dictGetD sMid.data.headword_entry_count
            (wordAt s (s.data.headword_index + (-1)).toNat) 0 = c := by
          rw [dictGetD, hcrec]
          rfl
        refine ⟨icok, ikok, preservesCounts_trans hpres ipres, iwr.trans hwr,
          ilg.trans hlg, by omega, ige, by omega, ie0, icur, ?_⟩
        intro j hj1 hj2
        by_cases hj : j = s.data.headword_index + (-1)
        · subst hj
          exact ⟨c, (ipres.2.2 _ c hcrec), by omega⟩
        · have := igap j hj1 (by omega)
          rwa [wordAt_congr hhw] at this
    · rw [if_neg hb] at h
      injection h with hb2 hs
      cases hb2

/-- Backward scan, failure, from a positive in-bounds index: the scan
drags the cursor all the way down to headword 0 (entry index 0), every
index below the start ends up with a non-positive recorded count, and no
save happens here. -/
theorem advanceNegOne_false_det (oracle : Oracle) :
    ∀ (fuel : Nat) (s s' : EngineState),
      cacheOK oracle s → countsOK oracle s →
      0 < s.data.headword_index →
      s.data.headword_index < (s.headwords.length : Int) →
      s.data.headword_index.toNat + 1 ≤ fuel →
      advanceHeadword oracle (-1) fuel s = (false, s') →
      cacheOK oracle s' ∧ countsOK oracle s' ∧ PreservesCounts s s' ∧
      s'.writes = s.writes ∧ s'.logs = s.logs ∧
      s'.data.headword_index = 0 ∧ s'.data.entry_index = 0 ∧
      (∀ j : Int, 0 ≤ j → j < s.data.headword_index →
        ∃ cj, dictGet s'.data.headword_entry_count (wordAt s j.toNat) = some cj ∧
          cj ≤ 0) := by
  intro fuel
  induction fuel with
  | zero =>
    intro s s' hc hk hh hub hfuel h
    omega
  | succ fuel ih =>
    intro s s' hc hk hh hub hfuel h
    unfold advanceHeadword at h
    have hb : 0 ≤ s.data.headword_index + (-1) ∧
        s.data.headword_index + (-1) < (s.headwords.length : Int) := by omega
    rw [if_pos hb] at h
    obtain ⟨sMid, hset, hhw, hwr, hlg, hhi, hei, hcok, hpres, hkpres,
        ⟨c, hcrec, hcor⟩⟩ :=
      setHeadwordIndex_spec oracle s (s.data.headword_index + (-1)) hb.1 hb.2 hc
    rw [hset] at h
    simp only [] at h
    have hlen : (sMid.headwords.length : Int) = (s.headwords.length : Int) := by
      rw [hhw]
    by_cases hguard : 0 < dictGetD sMid.data.headword_entry_count
        (wordAt s (s.data.headword_index + (-1)).toNat) 0
    · rw [if_pos hguard] at h
      injection h with hb2 hs2
      cases hb2
    · rw [if_neg hguard] at h
      have hgd : dictGetD sMid.data.headword_entry_count
          (wordAt s (s.data.headword_index + (-1)).toNat) 0 = c := by
        rw [dictGetD, hcrec]
        rfl
      by_cases hz : s.data.headword_index = 1
      · rcases fuel with - | fuel2
        · omega
        · unfold advanceHeadword at h
          rw [if_neg (by omega)] at h
          injection h with hb2 hs2
          subst hs2
          refine ⟨hcok, hkpres hk, hpres, hwr, hlg, by omega, hei, ?_⟩
          intro j hj0 hj1
          have hj : j = 0 := by omega
          subst hj
          refine ⟨c, ?_, by omega⟩
          have : (0 : Int).toNat = (s.data.headword_index + (-1)).toNat := by omega
          rw [this]
          exact hcrec
      · obtain ⟨icok, ikok, ipres, iwr, ilg, ih0, ie0, igap⟩ :=
          ih sMid s' hcok (hkpres hk) (by omega) (by omega) (by omega) h
        refine ⟨icok, ikok, preservesCounts_trans hpres ipres, iwr.trans hwr,
          ilg.trans hlg, ih0, ie0, ?_⟩
        intro j hj0 hj1
        by_cases hj : j = s.data.headword_index + (-1)
        · subst hj
          exact ⟨c, ipres.2.2 _ c hcrec, by omega⟩
        · have := igap j hj0 (by omega)
          rwa [wordAt_congr hhw] at this

/-- Forward scan, failure, from an in-bounds index: either the cursor was
already on the last headword and nothing changes, or the scan drags the
cursor to the last headword (entry index 0) and every index beyond the
start ends up with a non-positive recorded count. -/
theorem advanceOne_false_det (oracle : Oracle) :
    ∀ (fuel : Nat) (s s' : EngineState),
      cacheOK oracle s → countsOK oracle s →
      0 ≤ s.data.headword_index →
      s.data.headword_index < (s.headwords.length : Int) →
      ((s.headwords.length : Int) - s.data.headword_index).toNat ≤ fuel →
      advanceHeadword oracle 1 fuel s = (false, s') →
      cacheOK oracle s' ∧ countsOK oracle s' ∧ PreservesCounts s s' ∧
      s'.writes = s.writes ∧ s'.logs = s.logs ∧
      ((s.data.headword_index = (s.headwords.length : Int) - 1 ∧ s' = s) ∨
        (s.data.headword_index < (s.headwords.length : Int) - 1 ∧
          s'.data.headword_index = (s.headwords.length : Int) - 1 ∧
          s'.data.entry_index = 0 ∧
          (∀ j : Int, s.data.headword_index < j → j < (s.headwords.length : Int) →
            ∃ cj, dictGet s'.data.headword_entry_count (wordAt s j.toNat) = some cj ∧
              cj ≤ 0))) := by
  intro fuel
  induction fuel with
  | zero =>
    intro s s' hc hk hh hub hfuel h
    omega
  | succ fuel ih =>
    intro s s' hc hk hh hub hfuel h
    unfold advanceHeadword at h
    by_cases hb : 0 ≤ s.data.headword_index + 1 ∧
        s.data.headword_index + 1 < (s.headwords.length : Int)
    · rw [if_pos hb] at h
      obtain ⟨sMid, hset, hhw, hwr, hlg, hhi, hei, hcok, hpres, hkpres,
          ⟨c, hcrec, hcor⟩⟩ :=
        setHeadwordIndex_spec oracle s (s.data.headword_index + 1) hb.1 hb.2 hc
      rw [hset] at h
      simp only [] at h
      have hlen : (sMid.headwords.length : Int) = (s.headwords.length : Int) := by
        rw [hhw]
      by_cases hguard : 0 < dictGetD sMid.data.headword_entry_count
          (wordAt s (s.data.headword_index + 1).toNat) 0
      · rw [if_pos hguard] at h
        injection h with hb2 hs2
        cases hb2
      · rw [if_neg hguard] at h
        have hgd : dictGetD sMid.data.headword_entry_count
            (wordAt s (s.data.headword_index + 1).toNat) 0 = c := by
          rw [dictGetD, hcrec]
          rfl
        obtain ⟨icok, ikok, ipres, iwr, ilg, idisj⟩ :=
          ih sMid s' hcok (hkpres hk) (by omega) (by omega) (by omega) h
        refine ⟨icok, ikok, preservesCounts_trans hpres ipres, iwr.trans hwr,
          ilg.trans hlg, Or.inr ?_⟩
        rcases idisj with ⟨ilast, iseq⟩ | ⟨ilt, ih1, ie0, igap⟩
        · subst iseq
          refine ⟨by omega, by omega, hei, ?_⟩
          intro j hj1 hj2
          have hj : j = s.data.headword_index + 1 := by omega
          subst hj
          exact ⟨c, hcrec, by omega⟩
        · refine ⟨by omega, by omega, ie0, ?_⟩
          intro j hj1 hj2
          by_cases hj : j = s.data.headword_index + 1
          · subst hj
            exact ⟨c, ipres.2.2 _ c hcrec, by omega⟩
          · have := igap j (by omega) (by omega)
            rwa [wordAt_congr hhw] at this
    · rw [if_neg hb] at h
      injection h with hb2 hs2
      subst hs2
      exact ⟨hc, hk, preservesCounts_refl s, rfl, rfl, Or.inl ⟨by omega, rfl⟩⟩

/-- Forward scan over already-recorded non-positive counts stops exactly at
the first index with a positive recorded count, touching nothing but the
cursor. -/
theorem advanceOne_det_stop (oracle : Oracle) :
    ∀ (fuel : Nat) (s : EngineState) (t : Int),
      0 ≤ s.data.headword_index →
      s.data.headword_index < t → t < (s.headwords.length : Int) →
      (t - s.data.headword_index).toNat ≤ fuel →
      (∀ j : Int, s.data.headword_index < j → j < t →
        ∃ cj, dictGet s.data.headword_entry_count (wordAt s j.toNat) = some cj ∧
          cj ≤ 0) →
      (∃ ct, dictGet s.data.headword_entry_count (wordAt s t.toNat) = some ct ∧
        0 < ct) →
      advanceHeadword oracle 1 fuel s =
        (true, { s with data :=
          { s.data with headword_index := t, entry_index := 0 } }) := by
  intro fuel
  induction fuel with
  | zero =>
    intro s t h0 hlt hub hfuel hgap htgt
    omega
  | succ fuel ih =>
    intro s t h0 hlt hub hfuel hgap htgt
    unfold advanceHeadword
    have hb : 0 ≤ s.data.headword_index + 1 ∧
        s.data.headword_index + 1 < (s.headwords.length : Int) := by omega
    rw [if_pos hb]
    by_cases hstop : s.data.headword_index + 1 = t
    · obtain ⟨ct, hct, hctpos⟩ := htgt
      have hsome : (dictGet s.data.headword_entry_count
          (wordAt s (s.data.headword_index + 1).toNat)).isSome := by
        rw [hstop, hct]
        rfl
      rw [setHeadwordIndex_present oracle s (s.data.headword_index + 1)
        hb.1 hb.2 hsome]
      simp only []
      rw [if_pos (by
        show 0 < dictGetD s.data.headword_entry_count
          (wordAt s (s.data.headword_index + 1).toNat) 0
        rw [hstop, dictGetD, hct]
        simpa using hctpos)]
      rw [hstop]
    · obtain ⟨cj, hcj, hcjle⟩ := hgap (s.data.headword_index + 1) (by omega) (by omega)
      have hsome : (dictGet s.data.headword_entry_count
          (wordAt s (s.data.headword_index + 1).toNat)).isSome := by
        rw [hcj]
        rfl
      rw [setHeadwordIndex_present oracle s (s.data.headword_index + 1)
        hb.1 hb.2 hsome]
      simp only []
      rw [if_neg (by
        show ¬ (0 < dictGetD s.data.headword_entry_count
          (wordAt s (s.data.headword_index + 1).toNat) 0)
        rw [dictGetD, hcj]
        simp
        omega)]
      set sMid : EngineState := { s with data := { s.data with
        headword_index := s.data.headword_index + 1, entry_index := 0 } } with hsMid
      have hMidh : sMid.data.headword_index = s.data.headword_index + 1 := rfl
      have hMidc : sMid.data.headword_entry_count = s.data.headword_entry_count := rfl
      have hMidlen : (sMid.headwords.length : Int) = (s.headwords.length : Int) := rfl
      refine ih sMid t (by omega) (by omega) (by omega) (by omega) ?_ ?_
      · intro j hj1 hj2
        rw [hMidh] at hj1
        rw [hMidc]
        exact hgap j (by omega) hj2
      · rw [hMidc]
        exact htgt

/-- Forward scan over already-recorded non-positive counts with no
positive count remaining runs off the end: it fails, leaving the cursor
on the last headword (or untouched when it was already there). -/
theorem advanceOne_det_exhaust (oracle : Oracle) :
    ∀ (fuel : Nat) (s : EngineState),
      0 ≤ s.data.headword_index →
      s.data.headword_index < (s.headwords.length : Int) →
      ((s.headwords.length : Int) - s.data.headword_index).toNat ≤ fuel →
      (∀ j : Int, s.data.headword_index < j → j < (s.headwords.length : Int) →
        ∃ cj, dictGet s.data.headword_entry_count (wordAt s j.toNat) = some cj ∧
          cj ≤ 0) →
      advanceHeadword oracle 1 fuel s =
        (false, if s.data.headword_index = (s.headwords.length : Int) - 1 then s
          else { s with data := { s.data with
            headword_index := (s.headwords.length : Int) - 1,
            entry_index := 0 } }) := by
  intro fuel
  induction fuel with
  | zero =>
    intro s h0 hub hfuel hgap
    omega
  | succ fuel ih =>
    intro s h0 hub hfuel hgap
    unfold advanceHeadword
    by_cases hlast : s.data.headword_index = (s.headwords.length : Int) - 1
    · rw [if_neg (by omega), if_pos hlast]
    · have hb : 0 ≤ s.data.headword_index + 1 ∧
          s.data.headword_index + 1 < (s.headwords.length : Int) := by omega
      rw [if_pos hb]
      obtain ⟨cj, hcj, hcjle⟩ := hgap (s.data.headword_index + 1) (by omega) (by omega)
      have hsome : (dictGet s.data.headword_entry_count
          (wordAt s (s.data.headword_index + 1).toNat)).isSome := by
        rw [hcj]
        rfl
      rw [setHeadwordIndex_present oracle s (s.data.headword_index + 1)
        hb.1 hb.2 hsome]
      simp only []
      rw [if_neg (by
        show ¬ (0 < dictGetD s.data.headword_entry_count
          (wordAt s (s.data.headword_index + 1).toNat) 0)
        rw [dictGetD, hcj]
        simp
        omega)]
      rw [if_neg hlast]
      have := ih ({ s with data := { s.data with
          headword_index := s.data.headword_index + 1, entry_index := 0 } })
        (by simp only []; omega) (by simp only []; omega)
        (by simp only []; omega) (by
          intro j hj1 hj2
          simp only [] at hj1 hj2
          exact hgap j (by omega) hj2)
      rw [this]
      by_cases hlast2 : s.data.headword_index + 1 = (s.headwords.length : Int) - 1
      · rw [if_pos (by simp only []; omega)]
        rw [show (s.headwords.length : Int) - 1 = s.data.headword_index + 1 by omega]
      · rw [if_neg (by simp only []; omega)]

/-! ## Lemmas about `current_term` -/

theorem cacheOK_addLog (oracle : Oracle) (s : EngineState) (m : LogMsg)
    (hc : cacheOK oracle s) : cacheOK oracle (addLog s m) := hc

theorem countsOK_addLog (oracle : Oracle) (s : EngineState) (m : LogMsg)
    (hk : countsOK oracle s) : countsOK oracle (addLog s m) := hk

theorem pyIndex_cur (s : EngineState) (h0 : 0 ≤ s.data.headword_index)
    (h1 : s.data.headword_index < (s.headwords.length : Int)) :
    pyIndex s.headwords s.data.headword_index = some (curWord s) :=
  pyIndex_str s.headwords s.data.headword_index h0 h1

/-- `current_term`, no assumptions: the headword list and pending writes
are untouched, and the cursor either stays put or strictly advances. -/
theorem currentTermAux_light (oracle : Oracle) :
    ∀ (fuel : Nat) (s : EngineState) (t : DictionaryTerm) (s1 : EngineState),
      currentTermAux oracle fuel s = .ok (t, s1) →
      s1.headwords = s.headwords ∧ s1.writes = s.writes ∧
      (s1.data = s.data ∨
        (s.data.headword_index < s1.data.headword_index ∧
          s1.data.entry_index = 0 ∧ 0 ≤ s1.data.headword_index ∧
          s1.data.headword_index < (s.headwords.length : Int))) := by
  intro fuel
  induction fuel with
  | zero => intro s t s1 h; cases h
  | succ fuel ih =>
    intro s t s1 h
    unfold currentTermAux at h
    split at h
    · cases h
    · rename_i word hpy
      split at h
      · rename_i sg hget
        split at h
        · rename_i s3 hadv
          obtain ⟨ghw, gdata, gq, gwr, glg⟩ := getTerm_sameExceptCache oracle s word
          rw [hget] at ghw gdata gq gwr glg
          have hadv' : advanceHeadword oracle 1
              ((addLog sg (LogMsg.warnSkipHeadword word)).headwords.length + 1)
              (addLog sg (LogMsg.warnSkipHeadword word)) = (true, s3) := hadv
          obtain ⟨ahw, awr, adata, astrict⟩ :=
            advanceOne_light oracle _ _ _ _ hadv'
          obtain ⟨astrict1, astrict2, astrict3, astrict4⟩ := astrict rfl
          obtain ⟨ihw, iwr, idata⟩ := ih s3 t s1 h
          have hlogdata : (addLog sg (LogMsg.warnSkipHeadword word)).data = s.data := by
            rw [addLog]
            exact gdata
          have hloghw : (addLog sg (LogMsg.warnSkipHeadword word)).headwords =
              s.headwords := by
            rw [addLog]
            exact ghw
          have hlogwr : (addLog sg (LogMsg.warnSkipHeadword word)).writes =
              s.writes := by
            rw [addLog]
            exact gwr
          refine ⟨ihw.trans (ahw.trans hloghw), iwr.trans (awr.trans hlogwr), ?_⟩
          rw [hlogdata] at astrict1
          rw [hloghw] at astrict4
          rcases idata with heq | hlt
          · rw [heq]
            exact Or.inr ⟨astrict1, astrict2, astrict3, astrict4⟩
          · have h3 : (s3.headwords.length : Int) = (s.headwords.length : Int) := by
              rw [ahw.trans hloghw]
            exact Or.inr ⟨by omega, hlt.2.1, hlt.2.2.1, by omega⟩
        · cases h
      · rename_i term sg hget
        cases h
        obtain ⟨ghw, gdata, gq, gwr, glg⟩ := getTerm_sameExceptCache oracle s word
        rw [hget] at ghw gdata gwr
        exact ⟨ghw, gwr, Or.inl gdata⟩

/-- `current_term` when the current headword's lookup succeeds: no
skipping happens; only the cache can change. -/
theorem currentTermOp_noskip (oracle : Oracle) (s : EngineState)
    (es : List DictionaryEntry)
    (h0 : 0 ≤ s.data.headword_index)
    (h1 : s.data.headword_index < (s.headwords.length : Int))
    (hc : cacheOK oracle s) (hor : oracle (curWord s) = some es) :
    ∃ s1, currentTermOp oracle s = .ok (⟨curWord s, es⟩, s1) ∧
      SameExceptCache s s1 ∧ cacheOK oracle s1 := by
  rw [currentTermOp]
  unfold currentTermAux
  rw [pyIndex_cur s h0 h1]
  simp only []
  rcases hget : getTermForHeadword oracle s (curWord s) with ⟨t?, sg⟩
  have hfst := getTerm_fst oracle s (curWord s) hc
  rw [hget] at hfst
  simp only [hor, Option.map_some] at hfst
  subst hfst
  refine ⟨sg, rfl, ?_, ?_⟩
  · have := getTerm_sameExceptCache oracle s (curWord s)
    rwa [hget] at this
  · have := getTerm_cacheOK oracle s (curWord s) hc
    rwa [hget] at this

/-- `current_term` under the run invariants: it returns the term of the
headword the cursor ends on, either without moving the cursor or after
skipping strictly forward to a headword with a positive recorded count. -/
theorem currentTermAux_spec (oracle : Oracle) :
    ∀ (fuel : Nat) (s : EngineState) (t : DictionaryTerm) (s1 : EngineState),
      cacheOK oracle s → countsOK oracle s →
      0 ≤ s.data.headword_index →
      s.data.headword_index < (s.headwords.length : Int) →
      currentTermAux oracle fuel s = .ok (t, s1) →
      cacheOK oracle s1 ∧ countsOK oracle s1 ∧ PreservesCounts s s1 ∧
      s1.writes = s.writes ∧
      0 ≤ s1.data.headword_index ∧
      s1.data.headword_index < (s.headwords.length : Int) ∧
      t.headword = curWord s1 ∧ oracle (curWord s1) = some t.entries ∧
      ((s1.data = s.data ∧ s1.logs = s.logs) ∨
        (s.data.headword_index < s1.data.headword_index ∧
          s1.data.entry_index = 0 ∧
          ∃ c, dictGet s1.data.headword_entry_count (curWord s1) = some c ∧
            0 < c)) := by
  intro fuel
  induction fuel with
  | zero => intro s t s1 _ _ _ _ h; cases h
  | succ fuel ih =>
    intro s t s1 hc hk h0 h1 h
    unfold currentTermAux at h
    rw [pyIndex_cur s h0 h1] at h
    simp only [] at h
    rcases hget : getTermForHeadword oracle s (curWord s) with ⟨t?, sg⟩
    have hfst := getTerm_fst oracle s (curWord s) hc
    rw [hget] at hfst
    have hsec := getTerm_sameExceptCache oracle s (curWord s)
    rw [hget] at hsec
    obtain ⟨ghw, gdata, gq, gwr, glg⟩ := hsec
    have hgcok : cacheOK oracle sg := by
      have := getTerm_cacheOK oracle s (curWord s) hc
      rwa [hget] at this
    have hgkok : countsOK oracle sg := by
      intro w c hw
      rw [gdata] at hw
      exact hk w c hw
    rw [hget] at h
    rcases t? with - | term
    · simp only [] at h
      rcases hor : oracle (curWord s) with - | es
      swap
      · rw [hor] at hfst
        cases hfst
      · rcases hadv : goToNextHeadword oracle
            (addLog sg (LogMsg.warnSkipHeadword (curWord s))) with ⟨ok?, s3⟩
        rw [hadv] at h
        rcases ok? with - | -
        · simp only [] at h
          cases h
        · simp only [] at h
          have hadv' : advanceHeadword oracle 1
              ((addLog sg (LogMsg.warnSkipHeadword (curWord s))).headwords.length + 1)
              (addLog sg (LogMsg.warnSkipHeadword (curWord s))) = (true, s3) := hadv
          obtain ⟨acok, akok, apres, awr, alg, alt, age, aub, ae0, acur, agap⟩ :=
            advanceOne_true oracle _ _ _ (cacheOK_addLog oracle sg _ hgcok)
              (countsOK_addLog oracle sg _ hgkok) hadv'
          have hlogdata : (addLog sg (LogMsg.warnSkipHeadword (curWord s))).data =
              s.data := gdata
          have hloghw : (addLog sg (LogMsg.warnSkipHeadword (curWord s))).headwords =
              s.headwords := ghw
          have hlogwr : (addLog sg (LogMsg.warnSkipHeadword (curWord s))).writes =
              s.writes := gwr
          have h3len : ((addLog sg
              (LogMsg.warnSkipHeadword (curWord s))).headwords.length : Int) =
              (s.headwords.length : Int) := by rw [hloghw]
          rw [hlogdata] at alt
          have hlenAdd : (s3.headwords.length : Int) =
              ((addLog sg (LogMsg.warnSkipHeadword (curWord s))).headwords.length :
                Int) := by
            rw [apres.1]
          obtain ⟨icok, ikok, ipres, iwr, i0, iub2, ithw, itor, idisj⟩ :=
            ih s3 t s1 acok akok (by omega) (by omega) h
          have hprescomp : PreservesCounts s s1 :=
            preservesCounts_trans
              (sameExceptCache_preservesCounts ⟨ghw, gdata, gq, gwr, glg⟩)
              (preservesCounts_trans (addLog_preservesCounts sg _)
                (preservesCounts_trans apres ipres))
          have h3lenb : (s3.headwords.length : Int) = (s.headwords.length : Int) := by
            rw [apres.1, hloghw]
          refine ⟨icok, ikok, hprescomp, iwr.trans (awr.trans hlogwr),
            i0, by omega, ithw, itor, Or.inr ?_⟩
          rcases idisj with ⟨heq, hlgeq⟩ | ⟨hlt2, he02, hcrec2⟩
          · have hcw : curWord s1 = curWord s3 := by
              rw [curWord, curWord, heq, wordAt_congr ipres.1]
            rw [heq]
            refine ⟨by omega, ae0, ?_⟩
            obtain ⟨c, hcr, hcpos⟩ := acur
            refine ⟨c, ?_, hcpos⟩
            rw [hcw]
            exact hcr
          · refine ⟨by omega, he02, hcrec2⟩
    · simp only [] at h
      injection h with hpair
      injection hpair with hterm' hstate'
      subst hterm'
      subst hstate'
      rcases hor : oracle (curWord s) with - | es
      · rw [hor] at hfst
        cases hfst
      · rw [hor] at hfst
        have hterm : term = ⟨curWord s, es⟩ := by simpa using hfst
        have hcur1 : curWord sg = curWord s := by
          rw [curWord, curWord, gdata, wordAt_congr ghw]
        refine ⟨hgcok, hgkok, sameExceptCache_preservesCounts
          ⟨ghw, gdata, gq, gwr, glg⟩, gwr, by rw [gdata]; omega,
          by rw [gdata]; omega, ?_, ?_, Or.inl ⟨gdata, glg⟩⟩
        · rw [hterm, hcur1]
        · rw [hcur1, hterm, hor]

/-! ## Claim C4: commit only ever moves the cursor forward -/

theorem commitAdvance_cursor (oracle : Oracle) (c : Int) (s2 : EngineState) :
    (commitAdvance oracle c s2).data = s2.data ∨
    (s2.data.headword_index < (commitAdvance oracle c s2).data.headword_index ∧
      (commitAdvance oracle c s2).data.entry_index = 0) := by
  unfold commitAdvance
  by_cases hb : c ≤ s2.data.entry_index
  · rw [if_pos hb]
    rcases hadv : goToNextHeadword oracle s2 with ⟨ok?, s3⟩
    have hadv' : advanceHeadword oracle 1 (s2.headwords.length + 1) s2 = (ok?, s3) :=
      hadv
    obtain ⟨-, -, adata, astrict⟩ := advanceOne_light oracle _ _ _ _ hadv'
    rcases ok? with - | -
    · rcases adata with heq | hlt
      · refine Or.inl ?_
        show (addLog s3 LogMsg.infoReachedEnd).data = s2.data
        rw [addLog]
        exact heq
      · exact Or.inr ⟨hlt.1, hlt.2.1⟩
    · obtain ⟨h1, h2, -, -⟩ := astrict rfl
      exact Or.inr ⟨h1, h2⟩
  · rw [if_neg hb]
    exact Or.inl rfl

/-- Claim C4: a normally-returning `commit_entry` always moves the cursor
strictly forward in the lexicographic order on (headword_index,
entry_index) — in particular it never moves backward, and this holds on
the terminal no-more-work path as well. -/
theorem claim_C4 (oracle : Oracle) (s s' : EngineState)
    (h : commitEntry oracle s = .ok s') : lexLt (cursor s) (cursor s') := by
  unfold commitEntry at h
  split at h
  · cases h
  · rename_i term s1 hct
    obtain ⟨lhw, lwr, ldata⟩ := currentTermAux_light oracle _ _ term s1 hct
    have hIncH :
        ({ s with data :=
          { s.data with entry_index := s.data.entry_index + 1 } } :
            EngineState).data.headword_index = s.data.headword_index := rfl
    have hIncE :
        ({ s with data :=
          { s.data with entry_index := s.data.entry_index + 1 } } :
            EngineState).data.entry_index = s.data.entry_index + 1 := rfl
    split at h
    · rename_i c hrec
      cases h
      rcases commitAdvance_cursor oracle c s1 with heq | ⟨hlt1, he1⟩
      · rcases ldata with ldeq | ⟨llt, le0, -, -⟩
        · simp only [lexLt, cursor, saveHistory]
          rw [heq, ldeq, hIncH, hIncE]
          omega
        · rw [hIncH] at llt
          simp only [lexLt, cursor, saveHistory]
          rw [heq]
          omega
      · rcases ldata with ldeq | ⟨llt, le0, -, -⟩
        · rw [ldeq, hIncH] at hlt1
          simp only [lexLt, cursor, saveHistory]
          omega
        · rw [hIncH] at llt
          simp only [lexLt, cursor, saveHistory]
          omega
    · rename_i hrec
      cases h
      set sMid : EngineState :=
        addLog
          { s1 with data := { s1.data with
              headword_entry_count :=
                dictSet s1.data.headword_entry_count term.headword 0 } }
          (LogMsg.errNoEntryCount term.headword) with hsMid
      have hMidH : sMid.data.headword_index = s1.data.headword_index := rfl
      have hMidE : sMid.data.entry_index = s1.data.entry_index := rfl
      rcases commitAdvance_cursor oracle 0 sMid with heq | ⟨hlt1, he1⟩
      · rcases ldata with ldeq | ⟨llt, le0, -, -⟩
        · simp only [lexLt, cursor, saveHistory]
          rw [heq, hMidH, hMidE, ldeq, hIncH, hIncE]
          omega
        · rw [hIncH] at llt
          simp only [lexLt, cursor, saveHistory]
          rw [heq, hMidH]
          omega
      · rw [hMidH] at hlt1
        rcases ldata with ldeq | ⟨llt, le0, -, -⟩
        · rw [ldeq, hIncH] at hlt1
          simp only [lexLt, cursor, saveHistory]
          omega
        · rw [hIncH] at llt
          simp only [lexLt, cursor, saveHistory]
          omega

/-- Witness for claim C4 on a concrete reachable state. -/
theorem claim_C4_witness :
    ∃ s0 s1, initState oracleOneA ["a"] {} = .ok s0 ∧
      commitEntry oracleOneA s0 = .ok s1 ∧ lexLt (cursor s0) (cursor s1) :=
  ⟨_, _, rfl, rfl, claim_C4 oracleOneA _ _ rfl⟩

/-! ## Initialization establishes the run invariant -/

theorem hasEntries_true_spec (oracle : Oracle) (s s1 : EngineState)
    (hc : cacheOK oracle s) (h0 : 0 ≤ s.data.headword_index)
    (h : hasEntriesForCurrentWord oracle s = (true, s1)) :
    SameExceptCache s s1 ∧ cacheOK oracle s1 ∧
    s.data.headword_index < (s.headwords.length : Int) ∧
    0 < oracleCount oracle (curWord s) := by
  unfold hasEntriesForCurrentWord at h
  have hlt : s.data.headword_index < (s.headwords.length : Int) := by
    by_contra hge
    rw [pyIndex_oob s.headwords s.data.headword_index (Or.inr (by omega))] at h
    cases h
  rw [pyIndex_cur s h0 hlt] at h
  simp only [] at h
  rcases hget : getTermForHeadword oracle s (curWord s) with ⟨t?, sg⟩
  have hfst := getTerm_fst oracle s (curWord s) hc
  rw [hget] at hfst
  have hsec := getTerm_sameExceptCache oracle s (curWord s)
  rw [hget] at hsec
  have hgc := getTerm_cacheOK oracle s (curWord s) hc
  rw [hget] at hgc
  rw [hget] at h
  rcases t? with - | term
  · simp only [] at h
    cases h
  · simp only [] at h
    injection h with hb hs1
    subst hs1
    rcases hor : oracle (curWord s) with - | es
    · rw [hor] at hfst
      cases hfst
    · rw [hor] at hfst
      have hterm : term = ⟨curWord s, es⟩ := by simpa using hfst
      refine ⟨hsec, hgc, hlt, ?_⟩
      rw [oracleCount, hor]
      have : (0 : Int) < (term.entries.length : Int) := by
        have := of_decide_eq_true hb
        omega
      rw [hterm] at this
      simpa using this

theorem initAux_inv (oracle : Oracle) :
    ∀ (fuel : Nat) (s s' : EngineState),
      cacheOK oracle s → countsOK oracle s →
      s.data.entry_index = 0 → 0 ≤ s.data.headword_index →
      ((s.data.headword_index = 0 ∧ s.data.headword_entry_count = []) ∨
        (s.data.headword_index < (s.headwords.length : Int) ∧
          ∃ c, dictGet s.data.headword_entry_count (curWord s) = some c ∧ 0 < c)) →
      initAux oracle fuel s = .ok s' →
      Inv oracle s' ∧ cursorOk oracle s' := by
  intro fuel
  induction fuel with
  | zero => intro s s' _ _ _ _ _ h; cases h
  | succ fuel ih =>
    intro s s' hc hk he h0 hP h
    unfold initAux at h
    rcases hhe : hasEntriesForCurrentWord oracle s with ⟨has?, s1⟩
    rw [hhe] at h
    rcases has? with - | -
    · simp only [] at h
      have hsec1 : SameExceptCache s s1 := by
        unfold hasEntriesForCurrentWord at hhe
        rcases hpy : pyIndex s.headwords s.data.headword_index with - | word
        · rw [hpy] at hhe
          injection hhe with hb hs1
          subst hs1
          exact ⟨rfl, rfl, rfl, rfl, rfl⟩
        · rw [hpy] at hhe
          simp only [] at hhe
          rcases hget : getTermForHeadword oracle s word with ⟨t?, sg⟩
          have hsec := getTerm_sameExceptCache oracle s word
          rw [hget] at hsec
          rw [hget] at hhe
          rcases t? with - | term
          · simp only [] at hhe
            injection hhe with hb hs1
            subst hs1
            exact hsec
          · simp only [] at hhe
            injection hhe with hb hs1
            subst hs1
            exact hsec
      have hc1 : cacheOK oracle s1 := by
        unfold hasEntriesForCurrentWord at hhe
        rcases hpy : pyIndex s.headwords s.data.headword_index with - | word
        · rw [hpy] at hhe
          injection hhe with hb hs1
          subst hs1
          exact hc
        · rw [hpy] at hhe
          simp only [] at hhe
          rcases hget : getTermForHeadword oracle s word with ⟨t?, sg⟩
          have hgc := getTerm_cacheOK oracle s word hc
          rw [hget] at hgc
          rw [hget] at hhe
          rcases t? with - | term
          · simp only [] at hhe
            injection hhe with hb hs1
            subst hs1
            exact hgc
          · simp only [] at hhe
            injection hhe with hb hs1
            subst hs1
            exact hgc
      obtain ⟨g1hw, g1data, g1q, g1wr, g1lg⟩ := hsec1
      rcases hadv : goToNextHeadword oracle s1 with ⟨ok?, s2⟩
      rw [hadv] at h
      rcases ok? with - | -
      · simp only [] at h
        cases h
      · simp only [] at h
        have hadv' : advanceHeadword oracle 1 (s1.headwords.length + 1) s1 =
            (true, s2) := hadv
        have hk1 : countsOK oracle s1 := by
          intro w c hw
          rw [g1data] at hw
          exact hk w c hw
        obtain ⟨acok, akok, apres, awr, alg, alt, age, aub, ae0, acur, agap⟩ :=
          advanceOne_true oracle _ _ _ hc1 hk1 hadv'
        have hlen1 : (s1.headwords.length : Int) = (s.headwords.length : Int) := by
          rw [g1hw]
        have hlen2 : (s2.headwords.length : Int) = (s1.headwords.length : Int) := by
          rw [apres.1]
        refine ih s2 s' acok akok ae0 (by omega) (Or.inr ⟨by omega, acur⟩) h
    · simp only [] at h
      injection h with hs'
      subst hs'
      obtain ⟨⟨g1hw, g1data, g1q, g1wr, g1lg⟩, hc1, hlt, hcnt⟩ :=
        hasEntries_true_spec oracle s s1 hc h0 hhe
      have hcur1 : curWord s1 = curWord s := by
        rw [curWord, curWord, g1data, wordAt_congr g1hw]
      have hk1 : countsOK oracle s1 := by
        intro w c hw
        rw [g1data] at hw
        exact hk w c hw
      have hlen1 : (s1.headwords.length : Int) = (s.headwords.length : Int) := by
        rw [g1hw]
      constructor
      · refine ⟨by rw [g1data]; omega, by rw [g1data]; omega,
          by rw [g1data]; omega, hc1, hk1, ?_, ?_, ?_, ?_⟩
        · intro c hrec
          rw [g1data, hcur1] at hrec
          rcases hP with ⟨hz, hemp⟩ | ⟨-, c2, hrec2, hpos2⟩
          · rw [hemp] at hrec
            cases hrec
          · rw [hrec2] at hrec
            injection hrec with hrec
            left
            rw [g1data, he]
            omega
        · intro hrec
          rcases hP with ⟨hz, -⟩ | ⟨-, c2, hrec2, hpos2⟩
          · rw [g1data]
            exact ⟨hz, he⟩
          · rw [g1data, hcur1, hrec2] at hrec
            cases hrec
        · intro hpos
          rw [g1data, he] at hpos
          omega
        · rcases hP with ⟨hz, hemp⟩ | ⟨-, c2, hrec2, hpos2⟩
          · right
            have : wordAt s1 0 = wordAt s 0 := wordAt_congr g1hw 0
            rw [this]
            have hzz : curWord s = wordAt s 0 := by
              rw [curWord, hz]
              rfl
            rw [← hzz]
            exact hcnt
          · left
            refine ⟨s.data.headword_index.toNat, by omega, c2, ?_, hpos2⟩
            rw [g1data, wordAt_congr g1hw]
            exact hrec2
      · refine ⟨by rw [g1data]; omega, by rw [g1data]; omega, ?_, ?_, ?_, ?_⟩
        · rw [hcur1]
          exact hcnt
        · rw [g1data]
          omega
        · rw [hcur1, g1data, he]
          exact hcnt
        · rw [hcur1, g1data]
          rcases hP with ⟨hz, hemp⟩ | ⟨-, c2, hrec2, hpos2⟩
          · left
            rw [hemp]
            rfl
          · right
            rw [hrec2]
            have := hk _ _ hrec2
            rcases this with heq | hzero
            · rw [heq]
            · omega

/-- `State.__init__` with no persisted history establishes both the run
invariant and the amended cursor invariant. -/
theorem initState_inv (oracle : Oracle) (headwords : List String)
    (s' : EngineState) (h : initState oracle headwords {} = .ok s') :
    Inv oracle s' ∧ cursorOk oracle s' := by
  refine initAux_inv oracle (headwords.length + 1) _ s' ?_ ?_ rfl
    (le_refl (0 : Int)) (Or.inl ⟨rfl, rfl⟩) h
  · intro w t hw
    cases hw
  · intro w c hw
    cases hw

/-! ## Invariant preservation for commit and undo -/

theorem someUsable_mono {oracle : Oracle} {s s' : EngineState}
    (hp : PreservesCounts s s') (hu : someUsable oracle s) :
    someUsable oracle s' := by
  obtain ⟨hhw, -, hkeep⟩ := hp
  rcases hu with ⟨j, hj, c, hrec, hpos⟩ | hor
  · left
    refine ⟨j, by rw [hhw]; exact hj, c, ?_, hpos⟩
    rw [wordAt_congr hhw]
    exact hkeep _ c hrec
  · right
    rw [wordAt_congr hhw]
    exact hor

theorem oracleCount_nonneg (oracle : Oracle) (w : String) :
    0 ≤ oracleCount oracle w := by
  rcases hor : oracle w with - | es <;> simp [oracleCount, hor]

theorem oracleCount_pos {oracle : Oracle} {w : String}
    (h : 0 < oracleCount oracle w) :
    ∃ es, oracle w = some es ∧ (es.length : Int) = oracleCount oracle w := by
  rcases hor : oracle w with - | es
  · rw [oracleCount, hor] at h
    simp at h
  · exact ⟨es, rfl, by simp [oracleCount, hor]⟩

theorem countsOK_pos {oracle : Oracle} {s : EngineState} {w : String} {c : Int}
    (hk : countsOK oracle s)
    (hrec : dictGet s.data.headword_entry_count w = some c) (hpos : 0 < c) :
    c = oracleCount oracle w :=
  (hk w c hrec).resolve_right (by omega)

/-! ### Invariant transports and introduction forms -/

theorem inv_addLog {oracle : Oracle} {X : EngineState} {m : LogMsg}
    (h : Inv oracle X) : Inv oracle (addLog X m) := h

theorem inv_saveHistory {oracle : Oracle} {X : EngineState}
    (h : Inv oracle X) : Inv oracle (saveHistory X) := h

/-- A state that just landed on a headword with a positive recorded count
satisfies the invariant. -/
theorem inv_of_landed (oracle : Oracle) (X : EngineState)
    (hcok : cacheOK oracle X) (hkok : countsOK oracle X)
    (h0 : 0 ≤ X.data.headword_index)
    (h1 : X.data.headword_index < (X.headwords.length : Int))
    (he : X.data.entry_index = 0)
    (hrec : ∃ c, dictGet X.data.headword_entry_count (curWord X) = some c ∧ 0 < c)
    (hu : someUsable oracle X) : Inv oracle X := by
  obtain ⟨c, hc, hcpos⟩ := hrec
  refine ⟨h0, h1, by omega, hcok, hkok, ?_, ?_, ?_, hu⟩
  · intro c' h'
    rw [hc] at h'
    injection h' with h'
    left
    omega
  · intro hn
    rw [hc] at hn
    cases hn
  · intro hp
    omega

/-- A state sitting on the last headword satisfies the invariant, provided
its current headword has a recorded count (or sits at the very origin)
and entries exist whenever the entry index is positive. -/
theorem inv_of_last (oracle : Oracle) (X : EngineState)
    (hcok : cacheOK oracle X) (hkok : countsOK oracle X)
    (hlast : X.data.headword_index = (X.headwords.length : Int) - 1)
    (h0 : 0 ≤ X.data.headword_index) (he : 0 ≤ X.data.entry_index)
    (hsome : (dictGet X.data.headword_entry_count (curWord X)).isSome ∨
      (X.data.headword_index = 0 ∧ X.data.entry_index = 0))
    (hA : 0 < X.data.entry_index → (oracle (curWord X)).isSome)
    (hu : someUsable oracle X) : Inv oracle X := by
  refine ⟨h0, by omega, he, hcok, hkok, ?_, ?_, hA, hu⟩
  · intro c' h'
    right
    left
    exact hlast
  · intro hn
    rcases hsome with hs | hz
    · rw [hn] at hs
      cases hs
    · exact hz

/-- A state at the very origin whose current headword's recorded count, if
any, is 0, satisfies the invariant. -/
theorem inv_of_zero (oracle : Oracle) (X : EngineState)
    (hcok : cacheOK oracle X) (hkok : countsOK oracle X)
    (hz : X.data.headword_index = 0) (he : X.data.entry_index = 0)
    (hlen : 0 < (X.headwords.length : Int))
    (hrec0 : ∀ c, dictGet X.data.headword_entry_count (curWord X) = some c →
      c = 0)
    (hu : someUsable oracle X) : Inv oracle X := by
  refine ⟨by omega, by omega, by omega, hcok, hkok, ?_, ?_, ?_, hu⟩
  · intro c' h'
    right
    right
    exact ⟨hz, he, hrec0 c' h'⟩
  · intro hn
    exact ⟨hz, he⟩
  · intro hp
    omega

/-- A state whose entry index lies strictly below the recorded count of
its current headword satisfies the invariant. -/
theorem inv_of_within (oracle : Oracle) (X : EngineState) (c : Int)
    (hcok : cacheOK oracle X) (hkok : countsOK oracle X)
    (h0 : 0 ≤ X.data.headword_index)
    (h1 : X.data.headword_index < (X.headwords.length : Int))
    (he0 : 0 ≤ X.data.entry_index)
    (hrec : dictGet X.data.headword_entry_count (curWord X) = some c)
    (hlt : X.data.entry_index < c)
    (hA : 0 < X.data.entry_index → (oracle (curWord X)).isSome)
    (hu : someUsable oracle X) : Inv oracle X := by
  refine ⟨h0, h1, he0, hcok, hkok, ?_, ?_, hA, hu⟩
  · intro c' h'
    rw [hrec] at h'
    injection h' with h'
    left
    omega
  · intro hn
    rw [hrec] at hn
    cases hn

/-- `commit_entry` preserves the run invariant. -/
theorem commitEntry_inv (oracle : Oracle) (s s' : EngineState)
    (hInv : Inv oracle s) (h : commitEntry oracle s = .ok s') :
    Inv oracle s' := by
  obtain ⟨i1, i2, i3, i4, i5, i6, i7, i8, i9⟩ := hInv
  unfold commitEntry at h
  split at h
  · cases h
  · rename_i term s1 hct
    set sInc : EngineState :=
      { s with data := { s.data with entry_index := s.data.entry_index + 1 } }
      with hsInc
    have hIncH : sInc.data.headword_index = s.data.headword_index := rfl
    have hIncE : sInc.data.entry_index = s.data.entry_index + 1 := rfl
    have hIncW : sInc.headwords = s.headwords := rfl
    have hIncLen : (sInc.headwords.length : Int) = (s.headwords.length : Int) := by
      rw [hIncW]
    have hcInc : cacheOK oracle sInc := i4
    have hkInc : countsOK oracle sInc := i5
    have hpresInc : PreservesCounts s sInc :=
      ⟨rfl, ⟨[], by simp, by simp⟩, fun _ _ hg => hg⟩
    obtain ⟨ccok, ckok, cpres, cwr, c0, cub, cthw, ctor, cdisj⟩ :=
      currentTermAux_spec oracle _ sInc term s1 hcInc hkInc (by omega) (by omega)
        hct
    have cubS : s1.data.headword_index < (s.headwords.length : Int) := by
      have hx : (sInc.headwords.length : Int) = (s.headwords.length : Int) := by
        rw [hIncW]
      omega
    have hs1len : (s1.headwords.length : Int) = (s.headwords.length : Int) := by
      rw [cpres.1, hIncW]
    have hUs1 : someUsable oracle s1 :=
      someUsable_mono (preservesCounts_trans hpresInc cpres) i9
    have he1 : 0 ≤ s1.data.entry_index := by
      rcases cdisj with ⟨hdeq, -⟩ | ⟨-, he0, -⟩
      · rw [hdeq, hIncE]
        omega
      · omega
    split at h
    · rename_i c hrec
      cases h
      rw [cthw] at hrec
      refine inv_saveHistory ?_
      unfold commitAdvance
      by_cases hb : c ≤ s1.data.entry_index
      · rw [if_pos hb]
        rcases hadv : goToNextHeadword oracle s1 with ⟨ok?, s3⟩
        have hadv' : advanceHeadword oracle 1 (s1.headwords.length + 1) s1 =
            (ok?, s3) := hadv
        rcases ok? with - | -
        · obtain ⟨acok, akok, apres, awr, alg, adisj⟩ :=
            advanceOne_false_det oracle _ s1 s3 ccok ckok c0 (by omega)
              (by omega) hadv'
          have hs3lenEq : (s3.headwords.length : Int) =
              (s1.headwords.length : Int) := by
            rw [apres.1]
          refine inv_addLog ?_
          have hUs3 : someUsable oracle s3 := someUsable_mono apres hUs1
          rcases adisj with ⟨alast, aeq⟩ | ⟨alt, ah3, ae3, agap⟩
          · rw [aeq]
            refine inv_of_last oracle s1 ccok ckok (by omega) c0 he1
              (Or.inl (by rw [hrec]; rfl)) (fun _ => by rw [ctor]; rfl) hUs1
          · have hcur3 : curWord s3 =
                wordAt s1 ((s1.headwords.length : Int) - 1).toNat := by
              rw [curWord, ah3, wordAt_congr apres.1]
            obtain ⟨cj, hcj, hcjle⟩ := agap ((s1.headwords.length : Int) - 1)
              (by omega) (by omega)
            refine inv_of_last oracle s3 acok akok (by omega) (by omega)
              (by omega) (Or.inl ?_) (fun hp => by omega) hUs3
            rw [hcur3, hcj]
            rfl
        · obtain ⟨acok, akok, apres, awr, alg, alt, age, aub, ae0, acur, agap⟩ :=
            advanceOne_true oracle _ s1 s3 ccok ckok hadv'
          have hs3lenEq : (s3.headwords.length : Int) =
              (s1.headwords.length : Int) := by
            rw [apres.1]
          exact inv_of_landed oracle s3 acok akok (by omega) (by omega) ae0 acur
            (someUsable_mono apres hUs1)
      · rw [if_neg hb]
        exact inv_of_within oracle s1 c ccok ckok c0 (by omega) he1 hrec (by omega)
          (fun _ => by rw [ctor]; rfl) hUs1
    · rename_i hrec
      cases h
      rw [cthw] at hrec ⊢
      have hnoskip : s1.data = sInc.data ∧ s1.logs = sInc.logs := by
        rcases cdisj with hok | ⟨-, -, c2, hrec2, -⟩
        · exact hok
        · rw [hrec2] at hrec
          cases hrec
      have hcur1 : curWord s1 = curWord s := by
        rw [curWord, curWord, hnoskip.1, hIncH, wordAt_congr cpres.1,
          wordAt_congr hIncW]
      have hrecS : dictGet s.data.headword_entry_count (curWord s) = none := by
        rcases hg : dictGet s.data.headword_entry_count (curWord s) with - | cg
        · rfl
        · have := cpres.2.2 _ cg hg
          rw [← hcur1] at this
          rw [this] at hrec
          cases hrec
      have hze : s.data.headword_index = 0 ∧ s.data.entry_index = 0 := i7 hrecS
      have h1h : s1.data.headword_index = 0 := by
        rw [hnoskip.1, hIncH, hze.1]
      have h1e : s1.data.entry_index = 1 := by
        rw [hnoskip.1, hIncE, hze.2]
        omega
      set sMid : EngineState :=
        addLog
          { s1 with data := { s1.data with
              headword_entry_count :=
                dictSet s1.data.headword_entry_count (curWord s1) 0 } }
          (LogMsg.errNoEntryCount (curWord s1)) with hsMid
      have hMidH : sMid.data.headword_index = s1.data.headword_index := rfl
      have hMidE : sMid.data.entry_index = s1.data.entry_index := rfl
      have hMidW : sMid.headwords = s1.headwords := rfl
      have hMidC : sMid.data.headword_entry_count =
          dictSet s1.data.headword_entry_count (curWord s1) 0 := rfl
      have hMidcok : cacheOK oracle sMid := ccok
      have hMidkok : countsOK oracle sMid := by
        intro w' c' hw'
        rw [hMidC] at hw'
        by_cases hww : w' = curWord s1
        · subst hww
          rw [dictGet_dictSet_self] at hw'
          injection hw' with hw'
          right
          omega
        · rw [dictGet_dictSet_ne _ _ _ _ hww] at hw'
          exact ckok w' c' hw'
      have hMidpres : PreservesCounts s1 sMid := by
        refine ⟨hMidW, ⟨[], by simp [hsMid, addLog], by simp⟩, ?_⟩
        intro w' c' hw'
        rw [hMidC]
        have hne : w' ≠ curWord s1 := fun hcon => by
          subst hcon
          rw [hw'] at hrec
          cases hrec
        rw [dictGet_dictSet_ne _ _ _ _ hne]
        exact hw'
      have hUsMid : someUsable oracle sMid := someUsable_mono hMidpres hUs1
      have hMidcur : curWord sMid = curWord s1 := by
        rw [curWord, curWord, hMidH, wordAt_congr hMidW]
      have hMidrec : dictGet sMid.data.headword_entry_count (curWord sMid) =
          some 0 := by
        rw [hMidcur, hMidC, dictGet_dictSet_self]
      refine inv_saveHistory ?_
      unfold commitAdvance
      rw [if_pos (by rw [hMidE, h1e]; omega)]
      rcases hadv : goToNextHeadword oracle sMid with ⟨ok?, s3⟩
      have hadv' : advanceHeadword oracle 1 (sMid.headwords.length + 1) sMid =
          (ok?, s3) := hadv
      have hMidlen : (sMid.headwords.length : Int) = (s.headwords.length : Int) := by
        rw [hMidW, hs1len]
      rcases ok? with - | -
      · obtain ⟨acok, akok, apres, awr, alg, adisj⟩ :=
          advanceOne_false_det oracle _ sMid s3 hMidcok hMidkok
            (by omega) (by omega) (by omega) hadv'
        have hs3lenEq : (s3.headwords.length : Int) =
            (sMid.headwords.length : Int) := by
          rw [apres.1]
        refine inv_addLog ?_
        have hUs3 : someUsable oracle s3 := someUsable_mono apres hUsMid
        rcases adisj with ⟨alast, aeq⟩ | ⟨alt, ah3, ae3, agap⟩
        · rw [aeq]
          refine inv_of_last oracle sMid hMidcok hMidkok (by omega) (by omega)
            (by omega) (Or.inl (by rw [hMidrec]; rfl))
            (fun _ => by rw [hMidcur, ctor]; rfl) hUsMid
        · have hcur3 : curWord s3 =
              wordAt sMid ((sMid.headwords.length : Int) - 1).toNat := by
            rw [curWord, ah3, wordAt_congr apres.1]
          obtain ⟨cj, hcj, hcjle⟩ := agap ((sMid.headwords.length : Int) - 1)
            (by omega) (by omega)
          refine inv_of_last oracle s3 acok akok (by omega) (by omega)
            (by omega) (Or.inl ?_) (fun hp => by omega) hUs3
          rw [hcur3, hcj]
          rfl
      · obtain ⟨acok, akok, apres, awr, alg, alt, age, aub, ae0, acur, agap⟩ :=
          advanceOne_true oracle _ sMid s3 hMidcok hMidkok hadv'
        have hs3lenEq : (s3.headwords.length : Int) =
            (sMid.headwords.length : Int) := by
          rw [apres.1]
        exact inv_of_landed oracle s3 acok akok (by omega) (by omega) ae0 acur
          (someUsable_mono apres hUsMid)

/-! ### Log bookkeeping -/

/-- The backward/forward scan never logs: its only logging site is the
out-of-range branch of `_set_headword_index`, which the loop's bounds
check makes unreachable. -/
theorem advanceHeadword_logs (oracle : Oracle) (step : Int) :
    ∀ (fuel : Nat) (s : EngineState) (b : Bool) (s' : EngineState),
      advanceHeadword oracle step fuel s = (b, s') → s'.logs = s.logs := by
  intro fuel
  induction fuel with
  | zero =>
    intro s b s' h
    unfold advanceHeadword at h
    injection h with hb hs
    rw [← hs]
  | succ fuel ih =>
    intro s b s' h
    unfold advanceHeadword at h
    by_cases hb : 0 ≤ s.data.headword_index + step ∧
        s.data.headword_index + step < (s.headwords.length : Int)
    · rw [if_pos hb] at h
      rcases hrec : dictGet s.data.headword_entry_count
          (wordAt s (s.data.headword_index + step).toNat) with - | c0
      · obtain ⟨sMid, K, hset, hhw, hwr, hlg, hhi, hei, hmap, hq⟩ :=
          setHeadwordIndex_absent_raw oracle s (s.data.headword_index + step)
            hb.1 hb.2 hrec
        rw [hset] at h
        simp only [] at h
        by_cases hguard : 0 < dictGetD sMid.data.headword_entry_count
            (wordAt s (s.data.headword_index + step).toNat) 0
        · rw [if_pos hguard] at h
          injection h with hb2 hs2
          rw [← hs2]
          exact hlg
        · rw [if_neg hguard] at h
          rw [ih sMid b s' h]
          exact hlg
      · rw [setHeadwordIndex_present oracle s (s.data.headword_index + step)
          hb.1 hb.2 (by simp [hrec])] at h
        simp only [] at h
        set sMid : EngineState :=
          { s with data := { s.data with
              headword_index := s.data.headword_index + step,
              entry_index := 0 } } with hsMid
        by_cases hguard : 0 < dictGetD sMid.data.headword_entry_count
            (wordAt s (s.data.headword_index + step).toNat) 0
        · rw [if_pos hguard] at h
          injection h with hb2 hs2
          rw [← hs2]
        · rw [if_neg hguard] at h
          rw [ih sMid b s' h]
    · rw [if_neg hb] at h
      injection h with hb2 hs
      rw [← hs]

/-- A normally-returning `current_term` only appends to the log. -/
theorem currentTermAux_logs (oracle : Oracle) :
    ∀ (fuel : Nat) (s : EngineState) (t : DictionaryTerm) (s1 : EngineState),
      currentTermAux oracle fuel s = .ok (t, s1) →
      ∃ l, s1.logs = s.logs ++ l := by
  intro fuel
  induction fuel with
  | zero => intro s t s1 h; cases h
  | succ fuel ih =>
    intro s t s1 h
    unfold currentTermAux at h
    rcases hpy : pyIndex s.headwords s.data.headword_index with - | word
    · rw [hpy] at h
      cases h
    · rw [hpy] at h
      simp only [] at h
      rcases hget : getTermForHeadword oracle s word with ⟨t?, sg⟩
      have hsec := getTerm_sameExceptCache oracle s word
      rw [hget] at hsec
      rw [hget] at h
      rcases t? with - | term
      · simp only [] at h
        rcases hadv : goToNextHeadword oracle
            (addLog sg (LogMsg.warnSkipHeadword word)) with ⟨ok?, s3⟩
        rw [hadv] at h
        rcases ok? with - | -
        · simp only [] at h
          cases h
        · simp only [] at h
          obtain ⟨l, hl⟩ := ih s3 t s1 h
          have hlg3 : s3.logs = (addLog sg (LogMsg.warnSkipHeadword word)).logs :=
            advanceHeadword_logs oracle 1 _ _ _ _ hadv
          refine ⟨LogMsg.warnSkipHeadword word :: l, ?_⟩
          rw [hl, hlg3]
          show (sg.logs ++ [LogMsg.warnSkipHeadword word]) ++ l =
            s.logs ++ (LogMsg.warnSkipHeadword word :: l)
          rw [hsec.2.2.2.2]
          simp
      · simp only [] at h
        injection h with hpair
        injection hpair with hterm hstate
        subst hstate
        refine ⟨[], ?_⟩
        rw [hsec.2.2.2.2]
        simp

/-- Computing the log messages an operation emitted from a
logs-concatenation equation. -/
theorem newLogs_of_append {s s' : EngineState} {l : List LogMsg}
    (h : s'.logs = s.logs ++ l) : newLogs s s' = l := by
  rw [newLogs, h, List.drop_left]

/-- `current_term` at any positive fuel when the current headword's lookup
succeeds: no skipping happens; only the cache can change. -/
theorem currentTermAux_noskip (oracle : Oracle) (fuel : Nat) (s : EngineState)
    (es : List DictionaryEntry)
    (h0 : 0 ≤ s.data.headword_index)
    (h1 : s.data.headword_index < (s.headwords.length : Int))
    (hc : cacheOK oracle s) (hor : oracle (curWord s) = some es) :
    ∃ s1, currentTermAux oracle (fuel + 1) s = .ok (⟨curWord s, es⟩, s1) ∧
      SameExceptCache s s1 ∧ cacheOK oracle s1 := by
  unfold currentTermAux
  rw [pyIndex_cur s h0 h1]
  simp only []
  rcases hget : getTermForHeadword oracle s (curWord s) with ⟨t?, sg⟩
  have hfst := getTerm_fst oracle s (curWord s) hc
  rw [hget] at hfst
  simp only [hor, Option.map_some] at hfst
  subst hfst
  refine ⟨sg, rfl, ?_, ?_⟩
  · have := getTerm_sameExceptCache oracle s (curWord s)
    rwa [hget] at this
  · have := getTerm_cacheOK oracle s (curWord s) hc
    rwa [hget] at this

theorem cursorOk_addLog {oracle : Oracle} {X : EngineState} {m : LogMsg}
    (h : cursorOk oracle X) : cursorOk oracle (addLog X m) := h

theorem cursorOk_saveHistory {oracle : Oracle} {X : EngineState}
    (h : cursorOk oracle X) : cursorOk oracle (saveHistory X) := h

/-- The advance step of `commit_entry`, case analysis: either no advance
happens, or the cursor lands on a usable headword without logging, or the
terminal condition is hit and logged. -/
theorem commitAdvance_cases (oracle : Oracle) (K : Int) (sX : EngineState)
    (hcok : cacheOK oracle sX) (hkok : countsOK oracle sX) :
    (¬ K ≤ sX.data.entry_index ∧ commitAdvance oracle K sX = sX) ∨
    (cursorOk oracle (commitAdvance oracle K sX) ∧
      (commitAdvance oracle K sX).logs = sX.logs) ∨
    (∃ l, (commitAdvance oracle K sX).logs = sX.logs ++ l ∧
      LogMsg.infoReachedEnd ∈ l) := by
  by_cases hb : K ≤ sX.data.entry_index
  · rcases hadv : goToNextHeadword oracle sX with ⟨ok?, s3⟩
    rcases ok? with - | -
    · have hca : commitAdvance oracle K sX = addLog s3 LogMsg.infoReachedEnd := by
        unfold commitAdvance
        rw [if_pos hb, hadv]
      right
      right
      have hlg3 : s3.logs = sX.logs := advanceHeadword_logs oracle 1 _ _ _ _ hadv
      refine ⟨[LogMsg.infoReachedEnd], ?_, by simp⟩
      rw [hca]
      show s3.logs ++ [LogMsg.infoReachedEnd] = sX.logs ++ [LogMsg.infoReachedEnd]
      rw [hlg3]
    · have hca : commitAdvance oracle K sX = s3 := by
        unfold commitAdvance
        rw [if_pos hb, hadv]
      right
      left
      obtain ⟨acok, akok, apres, awr, alg, alt, age, aub, ae0,
          ⟨cL, hcL, hcLpos⟩, agap⟩ :=
        advanceOne_true oracle _ sX s3 hcok hkok hadv
      have hlen3 : (s3.headwords.length : Int) = (sX.headwords.length : Int) := by
        rw [apres.1]
      have hcoc : cL = oracleCount oracle (curWord s3) :=
        countsOK_pos akok hcL hcLpos
      rw [hca]
      refine ⟨⟨by omega, by omega, by omega, by omega, by omega, Or.inr ?_⟩, alg⟩
      rw [hcL, hcoc]
  · left
    refine ⟨hb, ?_⟩
    unfold commitAdvance
    rw [if_neg hb]

/-- A normally-returning `commit_entry` that does not hit the terminal
"no more work" condition leaves the cursor on a usable headword with the
entry index in bounds. -/
theorem commitEntry_good (oracle : Oracle) (s s' : EngineState)
    (hInv : Inv oracle s) (h : commitEntry oracle s = .ok s')
    (hne : LogMsg.infoReachedEnd ∉ newLogs s s') : cursorOk oracle s' := by
  obtain ⟨i1, i2, i3, i4, i5, i6, i7, i8, i9⟩ := hInv
  unfold commitEntry at h
  split at h
  · cases h
  · rename_i term s1 hct
    set sInc : EngineState :=
      { s with data := { s.data with entry_index := s.data.entry_index + 1 } }
      with hsInc
    have hIncH : sInc.data.headword_index = s.data.headword_index := rfl
    have hIncE : sInc.data.entry_index = s.data.entry_index + 1 := rfl
    have hIncW : sInc.headwords = s.headwords := rfl
    have hIncL : sInc.logs = s.logs := rfl
    have hIncLen : (sInc.headwords.length : Int) = (s.headwords.length : Int) := by
      rw [hIncW]
    have hcInc : cacheOK oracle sInc := i4
    have hkInc : countsOK oracle sInc := i5
    obtain ⟨ccok, ckok, cpres, cwr, c0, cub, cthw, ctor, cdisj⟩ :=
      currentTermAux_spec oracle _ sInc term s1 hcInc hkInc (by omega) (by omega)
        hct
    obtain ⟨lskip, hlskip⟩ := currentTermAux_logs oracle _ sInc term s1 hct
    have hs1len : (s1.headwords.length : Int) = (s.headwords.length : Int) := by
      rw [cpres.1, hIncW]
    have he1 : 0 ≤ s1.data.entry_index := by
      rcases cdisj with ⟨hdeq, -⟩ | ⟨-, he0, -⟩
      · rw [hdeq, hIncE]
        omega
      · omega
    split at h
    · rename_i c hrec
      cases h
      rw [cthw] at hrec
      rcases commitAdvance_cases oracle c s1 ccok ckok with
        ⟨hnb, hca⟩ | ⟨hcg, hlg⟩ | ⟨l, hl, hmem⟩
      · rw [hca]
        have hcoc : c = oracleCount oracle (curWord s1) :=
          countsOK_pos ckok hrec (by omega)
        refine cursorOk_saveHistory ⟨c0, by omega, by omega, he1, by omega,
          Or.inr ?_⟩
        rw [hrec, hcoc]
      · exact cursorOk_saveHistory hcg
      · have hlogs : (saveHistory (commitAdvance oracle c s1)).logs =
            s.logs ++ (lskip ++ l) := by
          show (commitAdvance oracle c s1).logs = s.logs ++ (lskip ++ l)
          rw [hl, hlskip, hIncL, List.append_assoc]
        have hmem' : LogMsg.infoReachedEnd ∈
            newLogs s (saveHistory (commitAdvance oracle c s1)) := by
          rw [newLogs_of_append hlogs]
          exact List.mem_append.mpr (Or.inr hmem)
        exact absurd hmem' hne
    · rename_i hrec
      cases h
      rw [cthw] at hrec hne ⊢
      have hnoskip : s1.data = sInc.data ∧ s1.logs = sInc.logs := by
        rcases cdisj with hok | ⟨-, -, c2, hrec2, -⟩
        · exact hok
        · rw [hrec2] at hrec
          cases hrec
      have h1e : s1.data.entry_index = s.data.entry_index + 1 := by
        rw [hnoskip.1, hIncE]
      set sMid : EngineState :=
        addLog
          { s1 with data := { s1.data with
              headword_entry_count :=
                dictSet s1.data.headword_entry_count (curWord s1) 0 } }
          (LogMsg.errNoEntryCount (curWord s1)) with hsMid
      have hMidH : sMid.data.headword_index = s1.data.headword_index := rfl
      have hMidE : sMid.data.entry_index = s1.data.entry_index := rfl
      have hMidW : sMid.headwords = s1.headwords := rfl
      have hMidC : sMid.data.headword_entry_count =
          dictSet s1.data.headword_entry_count (curWord s1) 0 := rfl
      have hMidLg : sMid.logs =
          s1.logs ++ [LogMsg.errNoEntryCount (curWord s1)] := rfl
      have hMidcok : cacheOK oracle sMid := ccok
      have hMidkok : countsOK oracle sMid := by
        intro w' c' hw'
        rw [hMidC] at hw'
        by_cases hww : w' = curWord s1
        · subst hww
          rw [dictGet_dictSet_self] at hw'
          injection hw' with hw'
          right
          omega
        · rw [dictGet_dictSet_ne _ _ _ _ hww] at hw'
          exact ckok w' c' hw'
      rcases commitAdvance_cases oracle 0 sMid hMidcok hMidkok with
        ⟨hnb, -⟩ | ⟨hcg, hlg⟩ | ⟨l, hl, hmem⟩
      · exact absurd (by omega) hnb
      · exact cursorOk_saveHistory hcg
      · have hlogs : (saveHistory (commitAdvance oracle 0 sMid)).logs =
            s.logs ++ ((lskip ++ [LogMsg.errNoEntryCount (curWord s1)]) ++ l) := by
          show (commitAdvance oracle 0 sMid).logs = _
          rw [hl, hMidLg, hlskip, hIncL]
          simp
        have hmem' : LogMsg.infoReachedEnd ∈
            newLogs s (saveHistory (commitAdvance oracle 0 sMid)) := by
          rw [newLogs_of_append hlogs]
          exact List.mem_append.mpr (Or.inr hmem)
        exact absurd hmem' hne

/-- A normally-returning `undo` that does not hit the cannot-undo
condition leaves the cursor on a usable headword with the entry index in
bounds. -/
theorem undoOp_good (oracle : Oracle) (s s' : EngineState)
    (hInv : Inv oracle s) (hok : cursorOk oracle s)
    (h : undoOp oracle s = .ok s')
    (hne : LogMsg.infoCannotUndo ∉ newLogs s s') : cursorOk oracle s' := by
  obtain ⟨i1, i2, i3, i4, i5, i6, i7, i8, i9⟩ := hInv
  obtain ⟨k1, k2, k3, k4, k5, k6⟩ := hok
  unfold undoOp at h
  by_cases hpos : 0 < s.data.entry_index
  · rw [if_pos hpos] at h
    injection h with h
    subst h
    refine cursorOk_saveHistory ?_
    set sD : EngineState :=
      { s with data := { s.data with entry_index := s.data.entry_index - 1 } }
      with hsD
    have hDh : sD.data.headword_index = s.data.headword_index := rfl
    have hDe : sD.data.entry_index = s.data.entry_index - 1 := rfl
    have hDc : sD.data.headword_entry_count = s.data.headword_entry_count := rfl
    have hDcw : curWord sD = curWord s := rfl
    have hDlen : (sD.headwords.length : Int) = (s.headwords.length : Int) := rfl
    refine ⟨by omega, by omega, by rw [hDcw]; omega, by omega, ?_, ?_⟩
    · rw [hDcw]
      omega
    · rw [hDc, hDcw]
      exact k6
  · rw [if_neg hpos] at h
    by_cases hh : 0 < s.data.headword_index
    · rw [if_pos hh] at h
      rcases hadv : goToPreviousHeadword oracle s with ⟨ok?, s1⟩
      rw [hadv] at h
      rcases ok? with - | -
      · simp only [] at h
        injection h with h
        subst h
        have hadv' : advanceHeadword oracle (-1) (s.headwords.length + 1) s =
            (false, s1) := hadv
        obtain ⟨acok, akok, apres, awr, alg, ah0, ae0, agap⟩ :=
          advanceNegOne_false_det oracle _ s s1 i4 i5 hh i2 (by omega) hadv'
        have hlogs : (addLog s1 LogMsg.infoCannotUndo).logs =
            s.logs ++ [LogMsg.infoCannotUndo] := by
          show s1.logs ++ [LogMsg.infoCannotUndo] = s.logs ++ [LogMsg.infoCannotUndo]
          rw [alg]
        have hmem' : LogMsg.infoCannotUndo ∈
            newLogs s (addLog s1 LogMsg.infoCannotUndo) := by
          rw [newLogs_of_append hlogs]
          simp
        exact absurd hmem' hne
      · simp only [] at h
        have hadv' : advanceHeadword oracle (-1) (s.headwords.length + 1) s =
            (true, s1) := hadv
        obtain ⟨acok, akok, apres, awr, alg, altS, a0, aub, ae0,
            ⟨c1, hc1, hc1pos⟩, agap⟩ :=
          advanceNegOne_true oracle _ s s1 i4 i5 hadv'
        have hlen1 : (s1.headwords.length : Int) = (s.headwords.length : Int) := by
          rw [apres.1]
        have hc1oc : c1 = oracleCount oracle (curWord s1) :=
          countsOK_pos akok hc1 hc1pos
        have hocpos : 0 < oracleCount oracle (curWord s1) := by omega
        obtain ⟨es, hor, hes⟩ := oracleCount_pos hocpos
        obtain ⟨s2, hts, hsec2, hcok2⟩ :=
          currentTermOp_noskip oracle s1 es a0 (by omega) acok hor
        rw [hts] at h
        simp only [] at h
        obtain ⟨hw2, hdata2, hq2, hwr2, hlg2⟩ := hsec2
        have hcondeq : dictGetD s2.data.headword_entry_count (curWord s1) 0 =
            c1 := by
          rw [dictGetD, hdata2, hc1]
          rfl
        rw [hcondeq] at h
        rw [if_pos hc1pos] at h
        injection h with h
        subst h
        refine cursorOk_saveHistory ?_
        set sE : EngineState :=
          { s2 with data := { s2.data with entry_index := c1 - 1 } } with hsE
        have hEh : sE.data.headword_index = s2.data.headword_index := rfl
        have hEe : sE.data.entry_index = c1 - 1 := rfl
        have h2h : s2.data.headword_index = s1.data.headword_index := by
          rw [hdata2]
        have hElen : (sE.headwords.length : Int) = (s1.headwords.length : Int) := by
          show (s2.headwords.length : Int) = (s1.headwords.length : Int)
          rw [hw2]
        have hEcw : curWord sE = curWord s1 := by
          show wordAt sE sE.data.headword_index.toNat =
            wordAt s1 s1.data.headword_index.toNat
          rw [hEh, h2h]
          exact wordAt_congr (by rw [show sE.headwords = s2.headwords from rfl, hw2]) _
        have hErec : dictGet sE.data.headword_entry_count (curWord sE) =
            some c1 := by
          show dictGet s2.data.headword_entry_count (curWord sE) = some c1
          rw [hEcw, hdata2]
          exact hc1
        refine ⟨by omega, by omega, by rw [hEcw]; omega, by omega, ?_, Or.inr ?_⟩
        · rw [hEcw]
          omega
        · rw [hErec, hEcw, ← hc1oc]
    · rw [if_neg hh] at h
      injection h with h
      subst h
      have hlogs : (addLog s LogMsg.infoCannotUndo).logs =
          s.logs ++ [LogMsg.infoCannotUndo] := rfl
      have hmem' : LogMsg.infoCannotUndo ∈
          newLogs s (addLog s LogMsg.infoCannotUndo) := by
        rw [newLogs_of_append hlogs]
        simp
      exact absurd hmem' hne

/-- `undo` preserves the run invariant. -/
theorem undoOp_inv (oracle : Oracle) (s s' : EngineState)
    (hInv : Inv oracle s) (h : undoOp oracle s = .ok s') : Inv oracle s' := by
  obtain ⟨i1, i2, i3, i4, i5, i6, i7, i8, i9⟩ := hInv
  unfold undoOp at h
  by_cases hpos : 0 < s.data.entry_index
  · rw [if_pos hpos] at h
    injection h with h
    subst h
    refine inv_saveHistory ?_
    set sD : EngineState :=
      { s with data := { s.data with entry_index := s.data.entry_index - 1 } }
      with hsD
    have hDh : sD.data.headword_index = s.data.headword_index := rfl
    have hDe : sD.data.entry_index = s.data.entry_index - 1 := rfl
    have hDc : sD.data.headword_entry_count = s.data.headword_entry_count := rfl
    have hDcw : curWord sD = curWord s := rfl
    have hDlen : (sD.headwords.length : Int) = (s.headwords.length : Int) := rfl
    refine ⟨by omega, by omega, by omega, i4, i5, ?_, ?_, ?_, i9⟩
    · intro c hc
      rw [hDc, hDcw] at hc
      rcases i6 c hc with h' | h' | h'
      · left
        omega
      · right
        left
        omega
      · omega
    · intro hn
      rw [hDc, hDcw] at hn
      have := i7 hn
      omega
    · intro hp
      rw [hDcw]
      exact i8 hpos
  · rw [if_neg hpos] at h
    by_cases hh : 0 < s.data.headword_index
    · rw [if_pos hh] at h
      rcases hadv : goToPreviousHeadword oracle s with ⟨ok?, s1⟩
      rw [hadv] at h
      rcases ok? with - | -
      · simp only [] at h
        injection h with h
        subst h
        have hadv' : advanceHeadword oracle (-1) (s.headwords.length + 1) s =
            (false, s1) := hadv
        obtain ⟨acok, akok, apres, awr, alg, ah0, ae0, agap⟩ :=
          advanceNegOne_false_det oracle _ s s1 i4 i5 hh i2 (by omega) hadv'
        have hlen1 : (s1.headwords.length : Int) = (s.headwords.length : Int) := by
          rw [apres.1]
        refine inv_addLog ?_
        refine inv_of_zero oracle s1 acok akok ah0 ae0 (by omega) ?_
          (someUsable_mono apres i9)
        intro c hc
        obtain ⟨c0, hc0, hc0le⟩ := agap 0 (le_refl 0) hh
        have hc0' : dictGet s1.data.headword_entry_count (wordAt s 0) = some c0 :=
          hc0
        have hcw : curWord s1 = wordAt s 0 := by
          rw [curWord, ah0]
          exact wordAt_congr apres.1 _
        rw [hcw, hc0'] at hc
        injection hc with hc
        have hnn := oracleCount_nonneg oracle (wordAt s 0)
        rcases akok _ _ hc0' with hor | h0 <;> omega
      · simp only [] at h
        have hadv' : advanceHeadword oracle (-1) (s.headwords.length + 1) s =
            (true, s1) := hadv
        obtain ⟨acok, akok, apres, awr, alg, altS, a0, aub, ae0,
            ⟨c1, hc1, hc1pos⟩, agap⟩ :=
          advanceNegOne_true oracle _ s s1 i4 i5 hadv'
        have hlen1 : (s1.headwords.length : Int) = (s.headwords.length : Int) := by
          rw [apres.1]
        have hc1oc : c1 = oracleCount oracle (curWord s1) :=
          countsOK_pos akok hc1 hc1pos
        have hocpos : 0 < oracleCount oracle (curWord s1) := by omega
        obtain ⟨es, hor, hes⟩ := oracleCount_pos hocpos
        obtain ⟨s2, hts, hsec2, hcok2⟩ :=
          currentTermOp_noskip oracle s1 es a0 (by omega) acok hor
        rw [hts] at h
        simp only [] at h
        obtain ⟨hw2, hdata2, hq2, hwr2, hlg2⟩ := hsec2
        have hcondeq : dictGetD s2.data.headword_entry_count (curWord s1) 0 =
            c1 := by
          rw [dictGetD, hdata2, hc1]
          rfl
        rw [hcondeq] at h
        rw [if_pos hc1pos] at h
        injection h with h
        subst h
        refine inv_saveHistory ?_
        set sE : EngineState :=
          { s2 with data := { s2.data with entry_index := c1 - 1 } } with hsE
        have hEh : sE.data.headword_index = s2.data.headword_index := rfl
        have hEe : sE.data.entry_index = c1 - 1 := rfl
        have h2h : s2.data.headword_index = s1.data.headword_index := by
          rw [hdata2]
        have hElen : (sE.headwords.length : Int) = (s1.headwords.length : Int) := by
          show (s2.headwords.length : Int) = (s1.headwords.length : Int)
          rw [hw2]
        have hk2 : countsOK oracle s2 := by
          intro w c hw
          rw [hdata2] at hw
          exact akok w c hw
        have hEk : countsOK oracle sE := hk2
        have hEcok : cacheOK oracle sE := hcok2
        have hEcw : curWord sE = curWord s1 := by
          show wordAt sE sE.data.headword_index.toNat =
            wordAt s1 s1.data.headword_index.toNat
          rw [hEh, h2h]
          exact wordAt_congr (by rw [show sE.headwords = s2.headwords from rfl, hw2]) _
        have hErec : dictGet sE.data.headword_entry_count (curWord sE) = some c1 := by
          show dictGet s2.data.headword_entry_count (curWord sE) = some c1
          rw [hEcw, hdata2]
          exact hc1
        have hpres2 : PreservesCounts s1 s2 :=
          sameExceptCache_preservesCounts ⟨hw2, hdata2, hq2, hwr2, hlg2⟩
        have hpresE : PreservesCounts s2 sE :=
          ⟨rfl, ⟨[], by simp, by simp⟩, fun _ _ hw => hw⟩
        refine inv_of_within oracle sE c1 hEcok hEk (by omega) (by omega)
          (by omega) hErec (by omega) (fun _ => by rw [hEcw, hor]; rfl) ?_
        exact someUsable_mono hpresE (someUsable_mono hpres2
          (someUsable_mono apres i9))
    · rw [if_neg hh] at h
      injection h with h
      subst h
      exact inv_addLog ⟨i1, i2, i3, i4, i5, i6, i7, i8, i9⟩

/-- A successful scan always leaves the entry index at 0 and touches
neither the headword list nor the pending writes. -/
theorem advanceHeadword_true_spec (oracle : Oracle) (step : Int) :
    ∀ (fuel : Nat) (s s' : EngineState),
      advanceHeadword oracle step fuel s = (true, s') →
      s'.data.entry_index = 0 ∧ s'.headwords = s.headwords ∧
      s'.writes = s.writes := by
  intro fuel
  induction fuel with
  | zero =>
    intro s s' h
    unfold advanceHeadword at h
    injection h with hb hs
    cases hb
  | succ fuel ih =>
    intro s s' h
    unfold advanceHeadword at h
    by_cases hb : 0 ≤ s.data.headword_index + step ∧
        s.data.headword_index + step < (s.headwords.length : Int)
    · rw [if_pos hb] at h
      rcases hrec : dictGet s.data.headword_entry_count
          (wordAt s (s.data.headword_index + step).toNat) with - | c0
      · obtain ⟨sMid, K, hset, hhw, hwr, hlg, hhi, hei, hmap, hq⟩ :=
          setHeadwordIndex_absent_raw oracle s (s.data.headword_index + step)
            hb.1 hb.2 hrec
        rw [hset] at h
        simp only [] at h
        by_cases hguard : 0 < dictGetD sMid.data.headword_entry_count
            (wordAt s (s.data.headword_index + step).toNat) 0
        · rw [if_pos hguard] at h
          injection h with hb2 hs2
          rw [← hs2]
          exact ⟨hei, hhw, hwr⟩
        · rw [if_neg hguard] at h
          obtain ⟨ie, iw, iwr⟩ := ih sMid s' h
          exact ⟨ie, iw.trans hhw, iwr.trans hwr⟩
      · rw [setHeadwordIndex_present oracle s (s.data.headword_index + step)
          hb.1 hb.2 (by simp [hrec])] at h
        simp only [] at h
        set sMid : EngineState :=
          { s with data := { s.data with
              headword_index := s.data.headword_index + step,
              entry_index := 0 } } with hsMid
        by_cases hguard : 0 < dictGetD sMid.data.headword_entry_count
            (wordAt s (s.data.headword_index + step).toNat) 0
        · rw [if_pos hguard] at h
          injection h with hb2 hs2
          rw [← hs2]
          exact ⟨rfl, rfl, rfl⟩
        · rw [if_neg hguard] at h
          obtain ⟨ie, iw, iwr⟩ := ih sMid s' h
          exact ⟨ie, iw, iwr⟩
    · rw [if_neg hb] at h
      injection h with hb2 hs
      cases hb2

/-- The run invariant holds at every reachable state. -/
theorem reachable_inv (oracle : Oracle) (headwords : List String)
    (s : EngineState) (hr : Reachable oracle headwords s) : Inv oracle s := by
  induction hr with
  | init s0 h0 => exact (initState_inv oracle headwords s0 h0).1
  | commit s0 s1 hr0 hstep ih => exact commitEntry_inv oracle s0 s1 ih hstep
  | undo s0 s1 hr0 hstep ih => exact undoOp_inv oracle s0 s1 ih hstep

/-- Along operation sequences that never hit the terminal or cannot-undo
conditions, the run invariant and the cursor invariant both hold. -/
theorem goodReachable_inv (oracle : Oracle) (headwords : List String)
    (s : EngineState) (hr : GoodReachable oracle headwords s) :
    Inv oracle s ∧ cursorOk oracle s := by
  induction hr with
  | init s0 h0 => exact initState_inv oracle headwords s0 h0
  | commit s0 s1 hr0 hstep hng ih =>
    exact ⟨commitEntry_inv oracle s0 s1 ih.1 hstep,
      commitEntry_good oracle s0 s1 ih.1 hstep hng⟩
  | undo s0 s1 hr0 hstep hng ih =>
    exact ⟨undoOp_inv oracle s0 s1 ih.1 hstep,
      undoOp_good oracle s0 s1 ih.1 ih.2 hstep hng⟩

/-- Claim C1, amended: after initialization and after every `commit_entry`
or `undo` that returns normally without hitting the terminal
"reached the end" or the "cannot undo" condition, the current headword's
term has a positive number of senses, the entry index is within bounds
for that number, and the recorded entry count — when one is recorded at
all — equals that number.  (The recorded count can be absent right after
initialization, see the counterexample.) -/
theorem claim_C1_amended (oracle : Oracle) (headwords : List String)
    (s : EngineState) (hr : GoodReachable oracle headwords s) :
    cursorOk oracle s :=
  (goodReachable_inv oracle headwords s hr).2

/-- Witness for the amended claim C1 at a concrete input. -/
theorem claim_C1_amended_witness :
    ∃ s, initState oracleAB ["a", "b"] {} = .ok s ∧ cursorOk oracleAB s :=
  ⟨_, rfl, claim_C1_amended oracleAB ["a", "b"] _ (GoodReachable.init _ rfl)⟩

theorem curWord_congr {s s' : EngineState} (hW : s'.headwords = s.headwords)
    (hH : s'.data.headword_index = s.data.headword_index) :
    curWord s' = curWord s := by
  rw [curWord, curWord, hH]
  exact wordAt_congr hW _

/-- `commit_entry` when the incremented cursor's headword resolves without
skipping and has a recorded count: the result is a save of the advance
step applied to the (cache-extended) incremented state. -/
theorem commitEntry_noskip_spec (oracle : Oracle) (sS : EngineState)
    (es : List DictionaryEntry) (K : Int)
    (hcok : cacheOK oracle sS)
    (h0 : 0 ≤ sS.data.headword_index)
    (h1 : sS.data.headword_index < (sS.headwords.length : Int))
    (hor : oracle (curWord sS) = some es)
    (hrecK : dictGet sS.data.headword_entry_count (curWord sS) = some K) :
    ∃ s2, SameExceptCache { sS with data := { sS.data with
        entry_index := sS.data.entry_index + 1 } } s2 ∧
      cacheOK oracle s2 ∧
      commitEntry oracle sS = .ok (saveHistory (commitAdvance oracle K s2)) := by
  set sI : EngineState := { sS with data := { sS.data with
      entry_index := sS.data.entry_index + 1 } } with hsI
  obtain ⟨s2, hts, hsec, hcok2⟩ :=
    currentTermOp_noskip oracle sI es h0 h1 hcok hor
  refine ⟨s2, hsec, hcok2, ?_⟩
  unfold commitEntry
  rw [← hsI, hts]
  simp only []
  have hrec2 : dictGet s2.data.headword_entry_count (curWord sI) = some K := by
    rw [hsec.2.1]
    exact hrecK
  rw [hrec2]

/-- Claim C8: from a reachable state at entry index 0 with a previous
headword available (the backward scan succeeds, i.e. no cannot-undo is
logged), `undo` moves the cursor to an earlier headword whose recorded
count `c` is positive and sets the entry index to `c - 1`.  And whenever
the landed headword's cached count is not positive, `undo` logs the
"previous word has no entries" warning and leaves the cursor on that
headword with entry index 0 (still persisting the state). -/
theorem claim_C8 (oracle : Oracle) :
    (∀ (headwords : List String) (s s' : EngineState),
      Reachable oracle headwords s →
      s.data.entry_index = 0 → 0 < s.data.headword_index →
      undoOp oracle s = .ok s' →
      LogMsg.infoCannotUndo ∉ newLogs s s' →
      s'.data.headword_index < s.data.headword_index ∧
      0 ≤ s'.data.headword_index ∧
      ∃ c, dictGet s'.data.headword_entry_count (curWord s') = some c ∧
        0 < c ∧ s'.data.entry_index = c - 1) ∧
    (∀ (s s1 : EngineState) (term : DictionaryTerm) (s2 : EngineState),
      ¬ 0 < s.data.entry_index → 0 < s.data.headword_index →
      goToPreviousHeadword oracle s = (true, s1) →
      currentTermOp oracle s1 = .ok (term, s2) →
      ¬ 0 < dictGetD s2.data.headword_entry_count term.headword 0 →
      ∃ s', undoOp oracle s = .ok s' ∧
        LogMsg.warnPrevNoEntries term.headword ∈ newLogs s s' ∧
        s'.data.headword_index = s2.data.headword_index ∧
        s'.data.entry_index = 0 ∧
        s'.writes = s.writes ++ [s'.data]) := by
  constructor
  · intro headwords s s' hr he0 hh hu hne
    obtain ⟨i1, i2, i3, i4, i5, i6, i7, i8, i9⟩ :=
      reachable_inv oracle headwords s hr
    unfold undoOp at hu
    rw [if_neg (by omega)] at hu
    rw [if_pos hh] at hu
    rcases hadv : goToPreviousHeadword oracle s with ⟨ok?, s1⟩
    rw [hadv] at hu
    rcases ok? with - | -
    · simp only [] at hu
      injection hu with hu
      subst hu
      have hadv' : advanceHeadword oracle (-1) (s.headwords.length + 1) s =
          (false, s1) := hadv
      obtain ⟨acok, akok, apres, awr, alg, ah0, ae0, agap⟩ :=
        advanceNegOne_false_det oracle _ s s1 i4 i5 hh i2 (by omega) hadv'
      have hlogs : (addLog s1 LogMsg.infoCannotUndo).logs =
          s.logs ++ [LogMsg.infoCannotUndo] := by
        show s1.logs ++ [LogMsg.infoCannotUndo] = s.logs ++ [LogMsg.infoCannotUndo]
        rw [alg]
      exact absurd (by rw [newLogs_of_append hlogs]; simp) hne
    · simp only [] at hu
      have hadv' : advanceHeadword oracle (-1) (s.headwords.length + 1) s =
          (true, s1) := hadv
      obtain ⟨acok, akok, apres, awr, alg, altS, a0, aub, ae0,
          ⟨c1, hc1, hc1pos⟩, agap⟩ :=
        advanceNegOne_true oracle _ s s1 i4 i5 hadv'
      have hlen1 : (s1.headwords.length : Int) = (s.headwords.length : Int) := by
        rw [apres.1]
      have hc1oc : c1 = oracleCount oracle (curWord s1) :=
        countsOK_pos akok hc1 hc1pos
      have hocpos : 0 < oracleCount oracle (curWord s1) := by omega
      obtain ⟨es, hor, hes⟩ := oracleCount_pos hocpos
      obtain ⟨s2, hts, hsec2, hcok2⟩ :=
        currentTermOp_noskip oracle s1 es a0 (by omega) acok hor
      rw [hts] at hu
      simp only [] at hu
      obtain ⟨hw2, hdata2, hq2, hwr2, hlg2⟩ := hsec2
      have hcondeq : dictGetD s2.data.headword_entry_count (curWord s1) 0 =
          c1 := by
        rw [dictGetD, hdata2, hc1]
        rfl
      rw [hcondeq] at hu
      rw [if_pos hc1pos] at hu
      injection hu with hu
      subst hu
      set sE : EngineState :=
        { s2 with data := { s2.data with entry_index := c1 - 1 } } with hsE
      have hEh : sE.data.headword_index = s2.data.headword_index := rfl
      have h2h : s2.data.headword_index = s1.data.headword_index := by
        rw [hdata2]
      have hEcw : curWord sE = curWord s1 := by
        show wordAt sE sE.data.headword_index.toNat =
          wordAt s1 s1.data.headword_index.toNat
        rw [hEh, h2h]
        exact wordAt_congr (by rw [show sE.headwords = s2.headwords from rfl, hw2]) _
      have hErec : dictGet sE.data.headword_entry_count (curWord sE) =
          some c1 := by
        show dictGet s2.data.headword_entry_count (curWord sE) = some c1
        rw [hEcw, hdata2]
        exact hc1
      refine ⟨?_, ?_, c1, ?_, hc1pos, ?_⟩
      · show sE.data.headword_index < s.data.headword_index
        omega
      · show 0 ≤ sE.data.headword_index
        omega
      · show dictGet sE.data.headword_entry_count (curWord sE) = some c1
        exact hErec
      · show sE.data.entry_index = c1 - 1
        rfl
  · intro s s1 term s2 hpos hh hadv hts hguard
    refine ⟨saveHistory (addLog s2 (LogMsg.warnPrevNoEntries term.headword)),
      ?_, ?_, rfl, ?_, ?_⟩
    · unfold undoOp
      rw [if_neg hpos, if_pos hh, hadv]
      simp only []
      rw [hts]
      simp only []
      rw [if_neg hguard]
    · obtain ⟨l2, hl2⟩ := currentTermAux_logs oracle _ s1 term s2 hts
      have hlg1 : s1.logs = s.logs := advanceHeadword_logs oracle (-1) _ _ _ _ hadv
      have hlogs :
          (saveHistory (addLog s2 (LogMsg.warnPrevNoEntries term.headword))).logs =
            s.logs ++ (l2 ++ [LogMsg.warnPrevNoEntries term.headword]) := by
        show s2.logs ++ [LogMsg.warnPrevNoEntries term.headword] = _
        rw [hl2, hlg1, List.append_assoc]
      rw [newLogs_of_append hlogs]
      exact List.mem_append.mpr (Or.inr (by simp))
    · obtain ⟨ie1, iw1, iwr1⟩ := advanceHeadword_true_spec oracle (-1) _ _ _ hadv
      obtain ⟨lhw, lwr, ldata⟩ := currentTermAux_light oracle _ s1 term s2 hts
      show s2.data.entry_index = 0
      rcases ldata with heq | hskip
      · rw [heq, ie1]
      · exact hskip.2.1
    · obtain ⟨ie1, iw1, iwr1⟩ := advanceHeadword_true_spec oracle (-1) _ _ _ hadv
      obtain ⟨lhw, lwr, ldata⟩ := currentTermAux_light oracle _ s1 term s2 hts
      show s2.writes ++ [s2.data] = s.writes ++ [s2.data]
      rw [lwr, iwr1]

/-- Witness for claim C8 at concrete inputs: a reachable state of the
ser/xyzxyz/estar run for the main branch, and a state with a poisoned
cache for the warning branch. -/
theorem claim_C8_witness :
    (∃ s0 s1 s2, freshInit oracleAB ["x", "a", "b"] = .ok s0 ∧
      commitEntry oracleAB s0 = .ok s1 ∧
      undoOp oracleAB s1 = .ok s2 ∧
      s2.data.headword_index < s1.data.headword_index ∧
      ∃ c, dictGet s2.data.headword_entry_count (curWord s2) = some c ∧
        0 < c ∧ s2.data.entry_index = c - 1) ∧
    (∃ s s' w, undoOp oracleEmpty s = .ok s' ∧
      LogMsg.warnPrevNoEntries w ∈ newLogs s s' ∧
      s'.data.entry_index = 0 ∧ s'.writes = s.writes ++ [s'.data]) := by
  constructor
  · obtain ⟨hlt, -, c, hc, hcpos, he⟩ :=
      (claim_C8 oracleAB).1 ["x", "a", "b"] _ _
        (Reachable.commit _ _ (Reachable.init _ rfl) rfl)
        (by decide) (by decide) rfl (by decide)
    exact ⟨_, _, _, rfl, rfl, rfl, hlt, c, hc, hcpos, he⟩
  · obtain ⟨s', heq, hmem, -, he, hwr⟩ :=
      (claim_C8 oracleEmpty).2 stBadCache _ _ _
        (by decide) (by decide) rfl rfl (by decide)
    exact ⟨stBadCache, s', _, heq, hmem, he, hwr⟩

/-- Claim C5: from any reachable state, an `undo` followed immediately by
a `commit_entry` (both returning normally, with the oracle unchanged
between the calls) restores the cursor (headword_index, entry_index)
exactly; at the boundary (very first entry of the very first headword),
`undo` alone already leaves the cursor unchanged, a no-op rather than a
true inverse. -/
theorem claim_C5 (oracle : Oracle) (headwords : List String) (s : EngineState)
    (hr : Reachable oracle headwords s) :
    (∀ s' s'', ¬ (s.data.headword_index = 0 ∧ s.data.entry_index = 0) →
      undoOp oracle s = .ok s' → commitEntry oracle s' = .ok s'' →
      cursor s'' = cursor s) ∧
    (∀ s', s.data.headword_index = 0 → s.data.entry_index = 0 →
      undoOp oracle s = .ok s' → cursor s' = cursor s) := by
  obtain ⟨i1, i2, i3, i4, i5, i6, i7, i8, i9⟩ := reachable_inv oracle headwords s hr
  constructor
  · intro s' s'' hnb hun hcm
    by_cases hpos : 0 < s.data.entry_index
    · -- entry_index > 0: undo decrements, commit re-increments
      unfold undoOp at hun
      rw [if_pos hpos] at hun
      injection hun with hun
      subst hun
      have hOSsome := i8 hpos
      rcases hOS : oracle (curWord s) with - | es
      · rw [hOS] at hOSsome
        cases hOSsome
      rcases hrecS : dictGet s.data.headword_entry_count (curWord s) with - | c
      · have := i7 hrecS
        omega
      set sS : EngineState := saveHistory
        { s with data := { s.data with entry_index := s.data.entry_index - 1 } }
        with hsS
      have hcokS : cacheOK oracle sS := i4
      have h0S : 0 ≤ sS.data.headword_index := i1
      have h1S : sS.data.headword_index < (sS.headwords.length : Int) := i2
      have horS : oracle (curWord sS) = some es := hOS
      have hrecKS : dictGet sS.data.headword_entry_count (curWord sS) = some c :=
        hrecS
      obtain ⟨s2, hsec, hcok2, hceq⟩ :=
        commitEntry_noskip_spec oracle sS es c hcokS h0S h1S horS hrecKS
      rw [hceq] at hcm
      injection hcm with hcm
      subst hcm
      have h2e : s2.data.entry_index = s.data.entry_index - 1 + 1 := by
        rw [hsec.2.1]
        rfl
      have h2h : s2.data.headword_index = s.data.headword_index := by
        rw [hsec.2.1]
        rfl
      have h2w : s2.headwords = s.headwords := hsec.1
      have hlen2 : (s2.headwords.length : Int) = (s.headwords.length : Int) := by
        rw [h2w]
      by_cases hlt : s.data.entry_index < c
      · have hca : commitAdvance oracle c s2 = s2 := by
          unfold commitAdvance
          rw [if_neg (by omega)]
        rw [hca]
        show (s2.data.headword_index, s2.data.entry_index) =
          (s.data.headword_index, s.data.entry_index)
        rw [h2h, show s2.data.entry_index = s.data.entry_index from by omega]
      · have hlast : s.data.headword_index = (s.headwords.length : Int) - 1 := by
          rcases i6 c hrecS with h' | h' | h'
          · omega
          · exact h'
          · omega
        have hgapA : ∀ j : Int, s2.data.headword_index < j →
            j < (s2.headwords.length : Int) →
            ∃ cj, dictGet s2.data.headword_entry_count (wordAt s2 j.toNat) =
              some cj ∧ cj ≤ 0 := by
          intro j hj1 hj2
          exact absurd hj2 (by omega)
        have hdetex := advanceOne_det_exhaust oracle (s2.headwords.length + 1) s2
          (by omega) (by omega) (by omega) hgapA
        rw [if_pos (show s2.data.headword_index =
          (s2.headwords.length : Int) - 1 from by omega)] at hdetex
        have hca : commitAdvance oracle c s2 = addLog s2 LogMsg.infoReachedEnd := by
          unfold commitAdvance
          rw [if_pos (by omega),
            show goToNextHeadword oracle s2 = (false, s2) from hdetex]
        rw [hca]
        show (s2.data.headword_index, s2.data.entry_index) =
          (s.data.headword_index, s.data.entry_index)
        rw [h2h, show s2.data.entry_index = s.data.entry_index from by omega]
    · -- entry_index = 0, so headword_index > 0
      have he0 : s.data.entry_index = 0 := by omega
      have hh : 0 < s.data.headword_index := by
        rcases lt_or_eq_of_le i1 with h' | h'
        · exact h'
        · exact absurd ⟨h'.symm, he0⟩ hnb
      unfold undoOp at hun
      rw [if_neg hpos, if_pos hh] at hun
      rcases hadv : goToPreviousHeadword oracle s with ⟨ok?, u1⟩
      rw [hadv] at hun
      rcases hrecS : dictGet s.data.headword_entry_count (curWord s) with - | c
      · have := i7 hrecS
        omega
      rcases ok? with - | -
      · -- backward scan failed: cursor dragged to (0, 0); the commit
        -- re-walks forward to the original headword
        simp only [] at hun
        injection hun with hun
        subst hun
        have hadv' : advanceHeadword oracle (-1) (s.headwords.length + 1) s =
            (false, u1) := hadv
        obtain ⟨acok, akok, apres, awr, alg, ah0, ae0, agap0⟩ :=
          advanceNegOne_false_det oracle _ s u1 i4 i5 hh i2 (by omega) hadv'
        have hcpersist : dictGet u1.data.headword_entry_count (curWord s) =
            some c := apres.2.2 _ _ hrecS
        set sA : EngineState := addLog u1 LogMsg.infoCannotUndo with hsA
        have hAh : sA.data.headword_index = 0 := ah0
        have hAe : sA.data.entry_index = 0 := ae0
        have hAw : sA.headwords = s.headwords := apres.1
        have hAlen : (sA.headwords.length : Int) = (s.headwords.length : Int) := by
          rw [hAw]
        have hAcok : cacheOK oracle sA := acok
        have hAcw : curWord sA = wordAt s 0 := by
          rw [curWord, hAh]
          exact wordAt_congr hAw _
        rcases hor0 : oracle (wordAt s 0) with - | es0
        · -- the first headword has no term: the commit skips it and scans
          set sI : EngineState :=
            { sA with data := { sA.data with
                entry_index := sA.data.entry_index + 1 } } with hsI
          have hIh : sI.data.headword_index = 0 := hAh
          have hIw : sI.headwords = s.headwords := hAw
          have hIlen : (sI.headwords.length : Int) = (s.headwords.length : Int) :=
            hAlen
          have hIcok : cacheOK oracle sI := acok
          have hIcw : curWord sI = wordAt s 0 := by
            rw [curWord, hIh]
            exact wordAt_congr hIw _
          have hget0 : getTermForHeadword oracle sI (curWord sI) = (none, sI) := by
            unfold getTermForHeadword
            rcases hcg : dictGet sI.cache (curWord sI) with - | t
            · simp only []
              rw [hIcw, hor0]
            · exfalso
              have h2 := (hIcok _ _ hcg).2
              rw [hIcw] at h2
              rw [hor0] at h2
              cases h2
          unfold commitEntry at hcm
          rw [← hsI] at hcm
          unfold currentTermOp at hcm
          unfold currentTermAux at hcm
          rw [pyIndex_cur sI (by omega) (by omega)] at hcm
          simp only [] at hcm
          rw [hget0] at hcm
          simp only [] at hcm
          set sW : EngineState :=
            addLog sI (LogMsg.warnSkipHeadword (curWord sI)) with hsW
          have hWh : sW.data.headword_index = 0 := hIh
          have hWc : sW.data.headword_entry_count =
              u1.data.headword_entry_count := rfl
          have hWw : sW.headwords = s.headwords := hIw
          have hWlen : (sW.headwords.length : Int) =
              (s.headwords.length : Int) := hIlen
          have hlenpos : 0 < sI.headwords.length := by omega
          by_cases hcpos : 0 < c
          · have hgapW : ∀ j : Int, sW.data.headword_index < j →
                j < s.data.headword_index →
                ∃ cj, dictGet sW.data.headword_entry_count
                  (wordAt sW j.toNat) = some cj ∧ cj ≤ 0 := by
              intro j hj1 hj2
              obtain ⟨cj, hcj, hle⟩ := agap0 j (by omega) hj2
              refine ⟨cj, ?_, hle⟩
              rw [hWc, wordAt_congr hWw]
              exact hcj
            have htgtW : ∃ ct, dictGet sW.data.headword_entry_count
                (wordAt sW s.data.headword_index.toNat) = some ct ∧ 0 < ct := by
              refine ⟨c, ?_, hcpos⟩
              rw [hWc, wordAt_congr hWw]
              exact hcpersist
            have hstop := advanceOne_det_stop oracle (sW.headwords.length + 1) sW
              s.data.headword_index (by omega) (by omega) (by omega) (by omega)
              hgapW htgtW
            set sT : EngineState := { sW with data := { sW.data with
                headword_index := s.data.headword_index,
                entry_index := 0 } } with hsT
            rw [show goToNextHeadword oracle sW = (true, sT) from hstop] at hcm
            simp only [] at hcm
            obtain ⟨n, hn⟩ : ∃ n, sI.headwords.length = n + 1 :=
              ⟨sI.headwords.length - 1, by omega⟩
            rw [hn] at hcm
            have hTh : sT.data.headword_index = s.data.headword_index := rfl
            have hTc : sT.data.headword_entry_count =
                u1.data.headword_entry_count := rfl
            have hTw : sT.headwords = s.headwords := hWw
            have hTlen : (sT.headwords.length : Int) =
                (s.headwords.length : Int) := hWlen
            have hTcok : cacheOK oracle sT := acok
            have hTcw : curWord sT = curWord s := by
              rw [curWord, hTh]
              exact wordAt_congr hTw _
            have hcoc : c = oracleCount oracle (curWord s) :=
              countsOK_pos i5 hrecS hcpos
            have hocpos : 0 < oracleCount oracle (curWord s) := by omega
            obtain ⟨esC, horC, hesC⟩ := oracleCount_pos hocpos
            have horT : oracle (curWord sT) = some esC := by
              rw [hTcw]
              exact horC
            obtain ⟨s5, hts5, hsec5, hcok5⟩ :=
              currentTermAux_noskip oracle n sT esC (by omega) (by omega)
                hTcok horT
            rw [hts5] at hcm
            simp only [] at hcm
            have hrec5 : dictGet s5.data.headword_entry_count (curWord sT) =
                some c := by
              rw [hsec5.2.1]
              show dictGet u1.data.headword_entry_count (curWord sT) = some c
              rw [hTcw]
              exact hcpersist
            rw [hrec5] at hcm
            simp only [] at hcm
            injection hcm with hcm
            subst hcm
            have h5e : s5.data.entry_index = 0 := by
              rw [hsec5.2.1]
            have h5h : s5.data.headword_index = s.data.headword_index := by
              rw [hsec5.2.1]
            have hca : commitAdvance oracle c s5 = s5 := by
              unfold commitAdvance
              rw [if_neg (by omega)]
            rw [hca]
            show (s5.data.headword_index, s5.data.entry_index) =
              (s.data.headword_index, s.data.entry_index)
            rw [h5h, h5e, he0]
          · have hlast : s.data.headword_index =
                (s.headwords.length : Int) - 1 := by
              rcases i6 c hrecS with h' | h' | h'
              · omega
              · exact h'
              · omega
            have hgapXw : ∀ j : Int, sW.data.headword_index < j →
                j < (sW.headwords.length : Int) →
                ∃ cj, dictGet sW.data.headword_entry_count
                  (wordAt sW j.toNat) = some cj ∧ cj ≤ 0 := by
              intro j hj1 hj2
              by_cases hjh : j = s.data.headword_index
              · subst hjh
                refine ⟨c, ?_, by omega⟩
                rw [hWc, wordAt_congr hWw]
                exact hcpersist
              · obtain ⟨cj, hcj, hle⟩ := agap0 j (by omega) (by omega)
                refine ⟨cj, ?_, hle⟩
                rw [hWc, wordAt_congr hWw]
                exact hcj
            have hdetex := advanceOne_det_exhaust oracle
              (sW.headwords.length + 1) sW (by omega) (by omega) (by omega)
              hgapXw
            rw [if_neg (show ¬ sW.data.headword_index =
              (sW.headwords.length : Int) - 1 from by omega)] at hdetex
            rw [show goToNextHeadword oracle sW = (false,
              { sW with data := { sW.data with
                headword_index := (sW.headwords.length : Int) - 1,
                entry_index := 0 } }) from hdetex] at hcm
            simp only [] at hcm
            cases hcm
        · -- the first headword still resolves: its recorded count (≤ 0)
          -- sends the commit straight into the forward scan
          obtain ⟨c0, hc0, hc0le⟩ := agap0 0 (le_refl 0) hh
          have hc0x : dictGet u1.data.headword_entry_count (wordAt s 0) =
              some c0 := hc0
          have horA : oracle (curWord sA) = some es0 := by
            rw [hAcw]
            exact hor0
          have hrecKA : dictGet sA.data.headword_entry_count (curWord sA) =
              some c0 := by
            rw [hAcw]
            exact hc0x
          obtain ⟨s4, hsec4, hcok4, hceq⟩ :=
            commitEntry_noskip_spec oracle sA es0 c0 hAcok (by omega) (by omega)
              horA hrecKA
          rw [hceq] at hcm
          injection hcm with hcm
          subst hcm
          have h4e : s4.data.entry_index = sA.data.entry_index + 1 := by
            rw [hsec4.2.1]
          have h4h : s4.data.headword_index = 0 := by
            rw [hsec4.2.1]
            exact hAh
          have h4c : s4.data.headword_entry_count =
              u1.data.headword_entry_count := by
            rw [hsec4.2.1]
            rfl
          have h4w : s4.headwords = s.headwords := hsec4.1.trans hAw
          have hlen4 : (s4.headwords.length : Int) =
              (s.headwords.length : Int) := by
            rw [h4w]
          by_cases hcpos : 0 < c
          · have hgap4 : ∀ j : Int, s4.data.headword_index < j →
                j < s.data.headword_index →
                ∃ cj, dictGet s4.data.headword_entry_count
                  (wordAt s4 j.toNat) = some cj ∧ cj ≤ 0 := by
              intro j hj1 hj2
              obtain ⟨cj, hcj, hle⟩ := agap0 j (by omega) hj2
              refine ⟨cj, ?_, hle⟩
              rw [h4c, wordAt_congr h4w]
              exact hcj
            have htgt4 : ∃ ct, dictGet s4.data.headword_entry_count
                (wordAt s4 s.data.headword_index.toNat) = some ct ∧ 0 < ct := by
              refine ⟨c, ?_, hcpos⟩
              rw [h4c, wordAt_congr h4w]
              exact hcpersist
            have hstop := advanceOne_det_stop oracle (s4.headwords.length + 1)
              s4 s.data.headword_index (by omega) (by omega) (by omega)
              (by omega) hgap4 htgt4
            have hca : commitAdvance oracle c0 s4 =
                { s4 with data := { s4.data with
                    headword_index := s.data.headword_index,
                    entry_index := 0 } } := by
              unfold commitAdvance
              rw [if_pos (by omega), show goToNextHeadword oracle s4 = (true,
                { s4 with data := { s4.data with
                    headword_index := s.data.headword_index,
                    entry_index := 0 } }) from hstop]
            rw [hca]
            show (s.data.headword_index, (0 : Int)) =
              (s.data.headword_index, s.data.entry_index)
            rw [he0]
          · have hlast : s.data.headword_index =
                (s.headwords.length : Int) - 1 := by
              rcases i6 c hrecS with h' | h' | h'
              · omega
              · exact h'
              · omega
            have hgapX4 : ∀ j : Int, s4.data.headword_index < j →
                j < (s4.headwords.length : Int) →
                ∃ cj, dictGet s4.data.headword_entry_count
                  (wordAt s4 j.toNat) = some cj ∧ cj ≤ 0 := by
              intro j hj1 hj2
              by_cases hjh : j = s.data.headword_index
              · subst hjh
                refine ⟨c, ?_, by omega⟩
                rw [h4c, wordAt_congr h4w]
                exact hcpersist
              · obtain ⟨cj, hcj, hle⟩ := agap0 j (by omega) (by omega)
                refine ⟨cj, ?_, hle⟩
                rw [h4c, wordAt_congr h4w]
                exact hcj
            have hdetex := advanceOne_det_exhaust oracle
              (s4.headwords.length + 1) s4 (by omega) (by omega) (by omega)
              hgapX4
            rw [if_neg (show ¬ s4.data.headword_index =
              (s4.headwords.length : Int) - 1 from by omega)] at hdetex
            have hca : commitAdvance oracle c0 s4 = addLog
                { s4 with data := { s4.data with
                    headword_index := (s4.headwords.length : Int) - 1,
                    entry_index := 0 } } LogMsg.infoReachedEnd := by
              unfold commitAdvance
              rw [if_pos (by omega), show goToNextHeadword oracle s4 = (false,
                { s4 with data := { s4.data with
                    headword_index := (s4.headwords.length : Int) - 1,
                    entry_index := 0 } }) from hdetex]
            rw [hca]
            show ((s4.headwords.length : Int) - 1, (0 : Int)) =
              (s.data.headword_index, s.data.entry_index)
            rw [he0, show (s4.headwords.length : Int) - 1 =
              s.data.headword_index from by omega]
      · -- backward scan succeeded: undo lands on the previous usable
        -- headword at its last entry; commit walks forward again
        simp only [] at hun
        have hadv' : advanceHeadword oracle (-1) (s.headwords.length + 1) s =
            (true, u1) := hadv
        obtain ⟨acok, akok, apres, awr, alg, altS, a0, aub, ae0,
            ⟨c1, hc1, hc1pos⟩, agap⟩ :=
          advanceNegOne_true oracle _ s u1 i4 i5 hadv'
        have hlen1 : (u1.headwords.length : Int) = (s.headwords.length : Int) := by
          rw [apres.1]
        have hc1oc : c1 = oracleCount oracle (curWord u1) :=
          countsOK_pos akok hc1 hc1pos
        have hocpos : 0 < oracleCount oracle (curWord u1) := by omega
        obtain ⟨es, hor, hes⟩ := oracleCount_pos hocpos
        obtain ⟨u2, hts, hsecu, hcoku⟩ :=
          currentTermOp_noskip oracle u1 es a0 (by omega) acok hor
        rw [hts] at hun
        simp only [] at hun
        obtain ⟨uw2, udata2, uq2, uwr2, ulg2⟩ := hsecu
        have hcondeq : dictGetD u2.data.headword_entry_count (curWord u1) 0 =
            c1 := by
          rw [dictGetD, udata2, hc1]
          rfl
        rw [hcondeq] at hun
        rw [if_pos hc1pos] at hun
        injection hun with hun
        subst hun
        set sE : EngineState :=
          { u2 with data := { u2.data with entry_index := c1 - 1 } } with hsE
        have hEh : sE.data.headword_index = u2.data.headword_index := rfl
        have h2hu : u2.data.headword_index = u1.data.headword_index := by
          rw [udata2]
        have hEw : sE.headwords = s.headwords := uw2.trans apres.1
        have hElen : (sE.headwords.length : Int) = (s.headwords.length : Int) := by
          rw [hEw]
        have hEcw : curWord sE = curWord u1 := by
          show wordAt sE sE.data.headword_index.toNat =
            wordAt u1 u1.data.headword_index.toNat
          rw [hEh, h2hu]
          exact wordAt_congr (by rw [show sE.headwords = u2.headwords from rfl, uw2]) _
        have hErec : dictGet sE.data.headword_entry_count (curWord sE) =
            some c1 := by
          show dictGet u2.data.headword_entry_count (curWord sE) = some c1
          rw [hEcw, udata2]
          exact hc1
        have hcokE : cacheOK oracle (saveHistory sE) := hcoku
        have horE : oracle (curWord (saveHistory sE)) = some es := by
          show oracle (curWord sE) = some es
          rw [hEcw]
          exact hor
        have hrecKE : dictGet (saveHistory sE).data.headword_entry_count
            (curWord (saveHistory sE)) = some c1 := hErec
        obtain ⟨s4, hsec4, hcok4, hceq⟩ :=
          commitEntry_noskip_spec oracle (saveHistory sE) es c1 hcokE
            (show 0 ≤ (saveHistory sE).data.headword_index from by
              show 0 ≤ sE.data.headword_index
              omega)
            (show (saveHistory sE).data.headword_index <
                ((saveHistory sE).headwords.length : Int) from by
              show sE.data.headword_index < (sE.headwords.length : Int)
              omega)
            horE hrecKE
        rw [hceq] at hcm
        injection hcm with hcm
        subst hcm
        have h4e : s4.data.entry_index = c1 - 1 + 1 := by
          rw [hsec4.2.1]
          rfl
        have h4h : s4.data.headword_index = u1.data.headword_index := by
          rw [hsec4.2.1]
          exact h2hu
        have h4c : s4.data.headword_entry_count =
            u1.data.headword_entry_count := by
          rw [hsec4.2.1]
          show u2.data.headword_entry_count = u1.data.headword_entry_count
          rw [udata2]
        have h4w : s4.headwords = s.headwords := hsec4.1.trans hEw
        have hlen4 : (s4.headwords.length : Int) = (s.headwords.length : Int) := by
          rw [h4w]
        have hcpersist : dictGet u1.data.headword_entry_count (curWord s) =
            some c := apres.2.2 _ _ hrecS
        by_cases hcpos : 0 < c
        · have hgap4 : ∀ j : Int, s4.data.headword_index < j →
              j < s.data.headword_index →
              ∃ cj, dictGet s4.data.headword_entry_count
                (wordAt s4 j.toNat) = some cj ∧ cj ≤ 0 := by
            intro j hj1 hj2
            obtain ⟨cj, hcj, hle⟩ := agap j (by omega) hj2
            refine ⟨cj, ?_, hle⟩
            rw [h4c, wordAt_congr h4w]
            exact hcj
          have htgt4 : ∃ ct, dictGet s4.data.headword_entry_count
              (wordAt s4 s.data.headword_index.toNat) = some ct ∧ 0 < ct := by
            refine ⟨c, ?_, hcpos⟩
            rw [h4c, wordAt_congr h4w]
            exact hcpersist
          have hstop := advanceOne_det_stop oracle (s4.headwords.length + 1)
            s4 s.data.headword_index (by omega) (by omega) (by omega)
            (by omega) hgap4 htgt4
          have hca : commitAdvance oracle c1 s4 =
              { s4 with data := { s4.data with
                  headword_index := s.data.headword_index,
                  entry_index := 0 } } := by
            unfold commitAdvance
            rw [if_pos (by omega), show goToNextHeadword oracle s4 = (true,
              { s4 with data := { s4.data with
                  headword_index := s.data.headword_index,
                  entry_index := 0 } }) from hstop]
          rw [hca]
          show (s.data.headword_index, (0 : Int)) =
            (s.data.headword_index, s.data.entry_index)
          rw [he0]
        · have hlast : s.data.headword_index =
              (s.headwords.length : Int) - 1 := by
            rcases i6 c hrecS with h' | h' | h'
            · omega
            · exact h'
            · omega
          have hgapX4 : ∀ j : Int, s4.data.headword_index < j →
              j < (s4.headwords.length : Int) →
              ∃ cj, dictGet s4.data.headword_entry_count
                (wordAt s4 j.toNat) = some cj ∧ cj ≤ 0 := by
            intro j hj1 hj2
            by_cases hjh : j = s.data.headword_index
            · subst hjh
              refine ⟨c, ?_, by omega⟩
              rw [h4c, wordAt_congr h4w]
              exact hcpersist
            · obtain ⟨cj, hcj, hle⟩ := agap j (by omega) (by omega)
              refine ⟨cj, ?_, hle⟩
              rw [h4c, wordAt_congr h4w]
              exact hcj
          have hdetex := advanceOne_det_exhaust oracle
            (s4.headwords.length + 1) s4 (by omega) (by omega) (by omega)
            hgapX4
          rw [if_neg (show ¬ s4.data.headword_index =
            (s4.headwords.length : Int) - 1 from by omega)] at hdetex
          have hca : commitAdvance oracle c1 s4 = addLog
              { s4 with data := { s4.data with
                  headword_index := (s4.headwords.length : Int) - 1,
                  entry_index := 0 } } LogMsg.infoReachedEnd := by
            unfold commitAdvance
            rw [if_pos (by omega), show goToNextHeadword oracle s4 = (false,
              { s4 with data := { s4.data with
                  headword_index := (s4.headwords.length : Int) - 1,
                  entry_index := 0 } }) from hdetex]
          rw [hca]
          show ((s4.headwords.length : Int) - 1, (0 : Int)) =
            (s.data.headword_index, s.data.entry_index)
          rw [he0, show (s4.headwords.length : Int) - 1 =
            s.data.headword_index from by omega]
  · intro s' hz he hun
    unfold undoOp at hun
    rw [if_neg (by omega), if_neg (by omega)] at hun
    injection hun with hun
    subst hun
    rfl

/-- Witness for claim C5 at a concrete input: the run on ["a", "b"] where
only "b" has a sense ends at ("b", 0); its undo drags the cursor to the
origin, and the following commit restores ("b", 0). -/
theorem claim_C5_witness :
    ∃ s0 s1 s2, initState oracleOnlyB ["a", "b"] {} = .ok s0 ∧
      undoOp oracleOnlyB s0 = .ok s1 ∧
      commitEntry oracleOnlyB s1 = .ok s2 ∧
      cursor s2 = cursor s0 := by
  refine ⟨_, _, _, rfl, rfl, rfl, ?_⟩
  exact (claim_C5 oracleOnlyB ["a", "b"] _ (Reachable.init _ rfl)).1 _ _
    (by decide) rfl rfl

end VocabCurate
